import Mathlib

/-!
Verification of the retrieval and chunk-store core of the RAGchat repository.

The model is a shallow embedding of the TypeScript sources:
- `src/frontend/src/lib/vector-math.ts` (scoring and ranking),
- `src/frontend/src/app/layout.tsx` (sentence chunker),
- `src/frontend/src/lib/storage.ts` (JSONL chunk store),
- `src/frontend/src/app/api/ingest-url/route.ts` (ingestion loop).

JavaScript strings are modelled as `List Char` (one entry per UTF-16 code
unit in the ASCII/BMP range that the theorems exercise), JavaScript numbers
as exact rationals `ℚ` (for scores) or exact decimal fixed-point values
(for JSON transport, where `JSON.stringify`/`JSON.parse` move doubles as
exact finite decimals).  All definitions are structurally recursive (fuel
where the source loops on a shrinking string) so that every theorem can be
evaluated on concrete inputs by the kernel.
-/

set_option maxRecDepth 100000

namespace RAGChat

/-! ## Vector math (`src/frontend/src/lib/vector-math.ts`) -/

/-- `EPSILON` from vector-math.ts line 11. -/
def EPSILON : ℚ := 1e-6

/-- `floatEqual` from vector-math.ts: `Math.abs(a - b) < EPSILON`. -/
def floatEqual (a b : ℚ) : Bool := |a - b| < EPSILON

/-- Dot product of two equal-length vectors (the loop in `cosineSimilarity`). -/
def dot (v1 v2 : List ℚ) : ℚ := (List.zipWith (· * ·) v1 v2).sum

/-- `Math.min` on the (non-NaN) rationals in scope. -/
def jsMin (a b : ℚ) : ℚ := if a ≤ b then a else b

/-- `Math.max` on the (non-NaN) rationals in scope. -/
def jsMax (a b : ℚ) : ℚ := if b ≤ a then a else b

/-- `cosineSimilarity` from vector-math.ts: throws (`none`) when the lengths
differ, otherwise the dot product clamped to `[0, 1]`. -/
def cosineSimilarity (v1 v2 : List ℚ) : Option ℚ :=
  if v1.length ≠ v2.length then none
  else some (jsMax 0 (jsMin 1 (dot v1 v2)))

/-- ASCII lower-casing, the fragment of `String.prototype.toLowerCase`
exercised by `\w` tokens (`[A-Za-z0-9_]` is ASCII-only). -/
def toLowerAscii (c : Char) : Char :=
  if 'A' ≤ c ∧ c ≤ 'Z' then Char.ofNat (c.toNat + 32) else c

/-- `\w` of the regex `/\b\w+\b/g` without the unicode flag: `[A-Za-z0-9_]`. -/
def isWordChar (c : Char) : Bool :=
  ('a' ≤ c ∧ c ≤ 'z') ∨ ('A' ≤ c ∧ c ≤ 'Z') ∨ ('0' ≤ c ∧ c ≤ '9') ∨ c = '_'

/-- Maximal runs of word characters (the matches of `/\b\w+\b/g`).
Fuel-driven so that the kernel can evaluate it; `fuel = cs.length` is enough
because every step consumes at least one character. -/
def wordRunsAux : Nat → List Char → List (List Char)
  | 0, _ => []
  | _ + 1, [] => []
  | fuel + 1, c :: cs =>
    if isWordChar c then
      (c :: cs.takeWhile isWordChar) :: wordRunsAux fuel (cs.dropWhile isWordChar)
    else
      wordRunsAux fuel cs

def wordRuns (cs : List Char) : List (List Char) := wordRunsAux cs.length cs

/-- `new Set(matches)`: keep the first occurrence of each element. -/
def dedupFirst : List (List Char) → List (List Char) → List (List Char)
  | _, [] => []
  | seen, x :: xs =>
    if x ∈ seen then dedupFirst seen xs else x :: dedupFirst (x :: seen) xs

/-- `extractWords` from vector-math.ts: lowercase, match `\b\w+\b`, collect
into a `Set` (modelled as a duplicate-free list in first-occurrence order). -/
def extractWords (text : List Char) : List (List Char) :=
  dedupFirst [] (wordRuns (text.map toLowerAscii))

/-- `keywordScore` from vector-math.ts: `|queryWords ∩ textWords| / |queryWords|`,
`0` for an empty query set. -/
def keywordScore (queryWords textWords : List (List Char)) : ℚ :=
  if queryWords.length = 0 then 0
  else ((queryWords.filter (fun w => w ∈ textWords)).length : ℚ) / (queryWords.length : ℚ)

/-- The weight table inside `hybridScore` (vector-math.ts lines 87-104):
default 0.8/0.2, overridden for `0 < wordCount < 5` and `5 ≤ wordCount < 15`. -/
def hybridWeights (wordCount : Nat) : ℚ × ℚ :=
  if wordCount > 0 then
    if wordCount < 5 then (0.6, 0.4)
    else if wordCount < 15 then (0.75, 0.25)
    else (0.8, 0.2)
  else (0.8, 0.2)

/-- `hybridScore` from vector-math.ts: `semanticWeight * semanticScore +
keywordWeight * keywordScore` with the dynamic weights.  The call sites pass
`queryWords.size`, modelled as the `wordCount` argument. -/
def hybridScore (semantic keyword : ℚ) (wordCount : Nat) : ℚ :=
  (hybridWeights wordCount).1 * semantic + (hybridWeights wordCount).2 * keyword

/-- `scoreChunk` from vector-math.ts; `none` models the dimension-mismatch
exception escaping from `cosineSimilarity`. -/
def scoreChunk (query : List Char) (queryEmbedding : List ℚ)
    (chunkText : List Char) (chunkEmbedding : List ℚ) : Option (ℚ × ℚ × ℚ) :=
  let queryWords := extractWords query
  let chunkWords := extractWords chunkText
  (cosineSimilarity queryEmbedding chunkEmbedding).map fun semantic =>
    let keyword := keywordScore queryWords chunkWords
    (semantic, keyword, hybridScore semantic keyword queryWords.length)

/-- A stored chunk as consumed by `rankChunks`. -/
structure ChunkIn where
  id : List Char
  doc : List Char
  text : List Char
  embedding : List ℚ
deriving DecidableEq, Repr

/-- A scored candidate (the element produced by the `chunks.map` inside
`rankChunks`): the chunk together with `semantic`, `keyword`, `hybrid` and
the original `index`. -/
structure RankedChunk where
  chunk : ChunkIn
  semantic : ℚ
  keyword : ℚ
  hybrid : ℚ
  index : Nat
deriving DecidableEq, Repr

instance : Inhabited RankedChunk := ⟨⟨⟨[], [], [], []⟩, 0, 0, 0, 0⟩⟩

/-- The scoring pass of `rankChunks` (its `chunks.map((chunk, index) => ...)`),
with `none` when scoring any candidate throws. -/
def scoreAllFrom (query : List Char) (queryEmbedding : List ℚ) :
    Nat → List ChunkIn → Option (List RankedChunk)
  | _, [] => some []
  | i, c :: cs => do
    let (s, k, h) ← scoreChunk query queryEmbedding c.text c.embedding
    let rest ← scoreAllFrom query queryEmbedding (i + 1) cs
    return ⟨c, s, k, h, i⟩ :: rest

def scoreAll (query : List Char) (queryEmbedding : List ℚ)
    (chunks : List ChunkIn) : Option (List RankedChunk) :=
  scoreAllFrom query queryEmbedding 0 chunks

/-- The comparator passed to `ranked.sort` in `rankChunks`: hybrid
descending with epsilon tolerance, then semantic descending with epsilon
tolerance, then index ascending.  Returns the (sign-relevant) JS number. -/
def jsCompare (a b : RankedChunk) : ℚ :=
  if ¬ floatEqual a.hybrid b.hybrid then b.hybrid - a.hybrid
  else if ¬ floatEqual a.semantic b.semantic then b.semantic - a.semantic
  else (a.index : ℚ) - (b.index : ℚ)

/-- `a` is placed strictly before `b` by the comparator. -/
def cmpLt (a b : RankedChunk) : Prop := jsCompare a b < 0

instance (a b : RankedChunk) : Decidable (cmpLt a b) := by
  unfold cmpLt; infer_instance

/-- Stable insertion used to model `Array.prototype.sort` (stable per
ES2019): a later element is inserted after the existing elements it does not
strictly precede. -/
def insertRanked (x : RankedChunk) : List RankedChunk → List RankedChunk
  | [] => [x]
  | y :: ys => if jsCompare x y < 0 then x :: y :: ys else y :: insertRanked x ys

def sortRanked (l : List RankedChunk) : List RankedChunk :=
  l.foldl (fun acc x => insertRanked x acc) []

/-- JS whitespace (the characters `String.prototype.trim` and `\s` strip);
the ASCII portion plus NBSP and the BOM, which covers every input in scope. -/
def jsWs (c : Char) : Bool :=
  c = ' ' ∨ c = '\t' ∨ c = '\n' ∨ c = '\r' ∨ c = '\x0b' ∨ c = '\x0c' ∨
    c = '\xa0' ∨ c = '﻿'

/-- `s.trim()` on a `List Char`. -/
def jsTrim (cs : List Char) : List Char :=
  ((cs.dropWhile jsWs).reverse.dropWhile jsWs).reverse

/-- One element of the value returned by `rankChunks`.  When the query is
empty the source returns the raw chunk objects (`as any`), which carry none
of the score fields; `scores = none` models the absent fields. -/
structure RankedItem where
  chunk : ChunkIn
  scores : Option (ℚ × ℚ × ℚ × Nat)
deriving DecidableEq, Repr

/-- `rankChunks` from vector-math.ts.  `none` models the dimension-mismatch
exception propagating out of the scoring pass. -/
def rankChunks (query : List Char) (queryEmbedding : List ℚ)
    (chunks : List ChunkIn) (topK : Nat) : Option (List RankedItem) :=
  if chunks = [] then some []
  else if jsTrim query = [] then
    some ((chunks.take topK).map fun c => ⟨c, none⟩)
  else
    (scoreAll query queryEmbedding chunks).map fun scored =>
      ((sortRanked scored).take topK).map fun r =>
        ⟨r.chunk, some (r.semantic, r.keyword, r.hybrid, r.index)⟩

/-! ### Lemmas about the ranking comparator -/

/-- `jsCompare` expressed with propositional conditions. -/
theorem jsCompare_def (a b : RankedChunk) :
    jsCompare a b =
      if |a.hybrid - b.hybrid| < EPSILON then
        (if |a.semantic - b.semantic| < EPSILON then (a.index : ℚ) - (b.index : ℚ)
         else b.semantic - a.semantic)
      else b.hybrid - a.hybrid := by
  unfold jsCompare floatEqual
  by_cases h1 : |a.hybrid - b.hybrid| < EPSILON <;>
    by_cases h2 : |a.semantic - b.semantic| < EPSILON <;>
      simp [h1, h2]

theorem epsilon_pos : (0 : ℚ) < EPSILON := by norm_num [EPSILON]

/-! ### Claim C1 -/

/-- Candidates whose scores witness the non-transitivity of the epsilon
comparator: semantic scores `0`, `9e-7` and `1.8e-6`. -/
def cexC1a : ChunkIn := ⟨"c1".data, "d".data, "x".data, [0]⟩

def cexC1b : ChunkIn := ⟨"c2".data, "d".data, "y".data, [9 / 10000000]⟩

def cexC1c : ChunkIn := ⟨"c3".data, "d".data, "z".data, [18 / 10000000]⟩

/-- The candidate set above as scored by `rankChunks`'s scoring pass for the
one-word query `"q"` with query embedding `[1]`. -/
def cexC1Scored : List RankedChunk :=
  (scoreAll "q".data [1] [cexC1a, cexC1b, cexC1c]).getD []

def cexR0 : RankedChunk := ⟨cexC1a, 0, 0, 0, 0⟩

def cexR1 : RankedChunk := ⟨cexC1b, 9/10000000, 0, 27/50000000, 1⟩

def cexR2 : RankedChunk := ⟨cexC1c, 9/5000000, 0, 27/25000000, 2⟩

theorem cexC1Scored_eq : cexC1Scored = [cexR0, cexR1, cexR2] := by
  have h1 : extractWords "q".data = ["q".data] := by decide
  have h2 : extractWords "x".data = ["x".data] := by decide
  have h3 : extractWords "y".data = ["y".data] := by decide
  have h4 : extractWords "z".data = ["z".data] := by decide
  simp only [cexC1Scored, scoreAll, scoreAllFrom, scoreChunk, cosineSimilarity, dot,
    cexC1a, cexC1b, cexC1c, h1, h2, h3, h4, keywordScore, hybridScore, hybridWeights,
    jsMax, jsMin, List.zipWith, List.sum_cons, List.sum_nil, List.length_cons,
    List.length_nil, List.length_singleton, List.filter, cexR0, cexR1, cexR2, Option.map,
    Option.bind, bind, Option.getD]
  norm_num
  decide

theorem c1_lt01 : cmpLt cexR0 cexR1 := by
  unfold cmpLt
  have h1 : |cexR0.hybrid - cexR1.hybrid| < EPSILON := by
    rw [abs_lt]; constructor <;> norm_num [cexR0, cexR1, EPSILON]
  have h2 : |cexR0.semantic - cexR1.semantic| < EPSILON := by
    rw [abs_lt]; constructor <;> norm_num [cexR0, cexR1, EPSILON]
  rw [jsCompare_def, if_pos h1, if_pos h2]
  norm_num [cexR0, cexR1]

theorem c1_lt12 : cmpLt cexR1 cexR2 := by
  unfold cmpLt
  have h1 : |cexR1.hybrid - cexR2.hybrid| < EPSILON := by
    rw [abs_lt]; constructor <;> norm_num [cexR1, cexR2, EPSILON]
  have h2 : |cexR1.semantic - cexR2.semantic| < EPSILON := by
    rw [abs_lt]; constructor <;> norm_num [cexR1, cexR2, EPSILON]
  rw [jsCompare_def, if_pos h1, if_pos h2]
  norm_num [cexR1, cexR2]

theorem c1_nlt02 : ¬ cmpLt cexR0 cexR2 := by
  unfold cmpLt
  have h1 : ¬ |cexR0.hybrid - cexR2.hybrid| < EPSILON := by
    rw [not_lt, abs_sub_comm,
      show cexR2.hybrid - cexR0.hybrid = 27/25000000 from by norm_num [cexR0, cexR2],
      abs_of_nonneg (by norm_num)]
    norm_num [EPSILON]
  rw [jsCompare_def, if_neg h1]
  norm_num [cexR0, cexR2]

/-- Claim C1, counterexample: the comparison used by `rankChunks` is not a
total order.  On the scored candidates `cexC1Scored` (semantic scores `0`,
`9e-7`, `1.8e-6`, all produced by `rankChunks`'s own scoring pass) the
strict "sorts before" relation fails transitivity: candidate 0 precedes
candidate 1 and candidate 1 precedes candidate 2 (epsilon ties broken by
index), yet candidate 0 does not precede candidate 2 (their hybrid scores
differ by `1.08e-6 ≥ 1e-6`, and candidate 2 wins on hybrid score). -/
theorem c1_rank_comparator_not_total_order_cex :
    ¬ (∀ a ∈ cexC1Scored, ∀ b ∈ cexC1Scored, ∀ c ∈ cexC1Scored,
        cmpLt a b → cmpLt b c → cmpLt a c) := by
  intro h
  have m0 : cexR0 ∈ cexC1Scored := by rw [cexC1Scored_eq]; simp
  have m1 : cexR1 ∈ cexC1Scored := by rw [cexC1Scored_eq]; simp
  have m2 : cexR2 ∈ cexC1Scored := by rw [cexC1Scored_eq]; simp
  exact c1_nlt02 (h cexR0 m0 cexR1 m1 cexR2 m2 c1_lt01 c1_lt12)

/-- Claim C1, amended: the comparison used by `rankChunks` is trichotomous
(any two scored candidates either strictly precede one another or share the
same original index), and `rankChunks` is a pure function, so ranking the
same fixed chunks and query twice yields identical ordering and scores; but
the epsilon-tolerant comparison is not transitive, hence not a total order
(see the counterexample). -/
theorem c1_rank_comparator_trichotomy_and_determinism :
    (∀ a b : RankedChunk, cmpLt a b ∨ cmpLt b a ∨ a.index = b.index) ∧
    (∀ (q : List Char) (qe : List ℚ) (chunks : List ChunkIn) (k : Nat),
      rankChunks q qe chunks k = rankChunks q qe chunks k) := by
  refine ⟨fun a b => ?_, fun q qe chunks k => rfl⟩
  unfold cmpLt
  by_cases h1 : |a.hybrid - b.hybrid| < EPSILON
  · have h1' : |b.hybrid - a.hybrid| < EPSILON := by rwa [abs_sub_comm]
    by_cases h2 : |a.semantic - b.semantic| < EPSILON
    · have h2' : |b.semantic - a.semantic| < EPSILON := by rwa [abs_sub_comm]
      rcases Nat.lt_trichotomy a.index b.index with hlt | heq | hgt
      · left
        rw [jsCompare_def, if_pos h1, if_pos h2, sub_neg]
        exact_mod_cast hlt
      · right; right; exact heq
      · right; left
        rw [jsCompare_def, if_pos h1', if_pos h2', sub_neg]
        exact_mod_cast hgt
    · have h2' : ¬ |b.semantic - a.semantic| < EPSILON := by rwa [abs_sub_comm]
      have hne : a.semantic ≠ b.semantic := fun he => h2 (by
        rw [he, sub_self, abs_zero]; exact epsilon_pos)
      rcases lt_or_gt_of_ne hne with hlt | hgt
      · right; left
        rw [jsCompare_def, if_pos h1', if_neg h2', sub_neg]
        exact hlt
      · left
        rw [jsCompare_def, if_pos h1, if_neg h2, sub_neg]
        exact hgt
  · have h1' : ¬ |b.hybrid - a.hybrid| < EPSILON := by rwa [abs_sub_comm]
    have hne : a.hybrid ≠ b.hybrid := fun he => h1 (by
      rw [he, sub_self, abs_zero]; exact epsilon_pos)
    rcases lt_or_gt_of_ne hne with hlt | hgt
    · right; left
      rw [jsCompare_def, if_neg h1', sub_neg]
      exact hlt
    · left
      rw [jsCompare_def, if_neg h1, sub_neg]
      exact hgt

/-! ### Claim C2 -/

/-- Modelled from the spec's weight table (section 4.3): `(0.60, 0.40)` for
`0 < n < 5`, `(0.75, 0.25)` for `5 ≤ n < 15`, `(0.80, 0.20)` for `n ≥ 15`
or `n = 0`.  Stated separately from `hybridWeights` (which is translated
from the source) so the two can be compared. -/
def specWeights (n : Nat) : ℚ × ℚ :=
  if n = 0 then (0.8, 0.2)
  else if n < 5 then (0.6, 0.4)
  else if n < 15 then (0.75, 0.25)
  else (0.8, 0.2)

/-- Claim C2: `hybridScore` is the weighted sum `w_s * semantic +
w_k * keyword` with the weights of the spec's table selected by the query's
word count; `"refund"` has one word, and word counts `1`, `10` and `20`
select weights `(0.6, 0.4)`, `(0.75, 0.25)` and `(0.8, 0.2)`. -/
theorem c2_hybrid_weight_selection :
    (∀ (s k : ℚ) (n : Nat),
        hybridScore s k n = (specWeights n).1 * s + (specWeights n).2 * k)
    ∧ (extractWords "refund".data).length = 1
    ∧ hybridWeights 1 = (0.6, 0.4)
    ∧ hybridWeights 10 = (0.75, 0.25)
    ∧ hybridWeights 20 = (0.8, 0.2) := by
  refine ⟨fun s k n => ?_, by decide, by norm_num [hybridWeights],
    by norm_num [hybridWeights], by norm_num [hybridWeights]⟩
  by_cases h0 : n = 0
  · subst h0; norm_num [hybridScore, hybridWeights, specWeights]
  · by_cases h5 : n < 5
    · simp [hybridScore, hybridWeights, specWeights, h0, h5, Nat.pos_of_ne_zero h0]
    · by_cases h15 : n < 15
      · simp [hybridScore, hybridWeights, specWeights, h0, h5, h15, Nat.pos_of_ne_zero h0]
      · simp [hybridScore, hybridWeights, specWeights, h0, h5, h15, Nat.pos_of_ne_zero h0]

/-! ### Claims C8 and C9 -/

/-- Claim C8: for a non-empty candidate list and an empty or whitespace-only
query, `rankChunks` returns the first `topK` candidates in storage order,
unscored, and does not throw. -/
theorem c8_empty_query_fallback (q : List Char) (qe : List ℚ)
    (chunks : List ChunkIn) (k : Nat)
    (hne : chunks ≠ []) (hq : jsTrim q = []) :
    rankChunks q qe chunks k = some ((chunks.take k).map fun c => ⟨c, none⟩) := by
  unfold rankChunks
  rw [if_neg hne, if_pos hq]

def c8chunk : ChunkIn := ⟨"a".data, "d".data, "t".data, []⟩

/-- Witness for C8 at a singleton store and the empty query. -/
theorem c8_empty_query_fallback_witness :
    rankChunks [] [] [c8chunk] 3 =
      some ((([c8chunk] : List ChunkIn).take 3).map fun c => ⟨c, none⟩) :=
  c8_empty_query_fallback [] [] [c8chunk] 3 (by decide) (by decide)

/-- Claim C9: when the query is empty or whitespace-only every element
returned by `rankChunks` carries no score fields (the raw chunk objects are
returned unchanged), and for a non-empty, non-whitespace query every
returned element carries all of `semantic`, `keyword`, `hybrid`, `index`. -/
theorem c9_score_fields_presence (q : List Char) (qe : List ℚ)
    (chunks : List ChunkIn) (k : Nat)
    (l : List RankedItem) (h : rankChunks q qe chunks k = some l) :
    (jsTrim q = [] → ∀ x ∈ l, x.scores = none) ∧
    (jsTrim q ≠ [] → ∀ x ∈ l, x.scores ≠ none) := by
  constructor
  · intro hq x hx
    unfold rankChunks at h
    by_cases hc : chunks = []
    · rw [if_pos hc] at h
      cases h
      simp at hx
    · rw [if_neg hc, if_pos hq] at h
      cases h
      obtain ⟨c, _, rfl⟩ := List.mem_map.mp hx
      rfl
  · intro hq x hx
    unfold rankChunks at h
    by_cases hc : chunks = []
    · rw [if_pos hc] at h
      cases h
      simp at hx
    · rw [if_neg hc, if_neg hq] at h
      obtain ⟨scored, _, rfl⟩ := Option.map_eq_some'.mp h
      obtain ⟨r, _, rfl⟩ := List.mem_map.mp hx
      simp

/-- Witness for C9 at a singleton store and the empty query. -/
theorem c9_score_fields_presence_witness :
    (jsTrim ([] : List Char) = [] →
      ∀ x ∈ ([⟨c8chunk, none⟩] : List RankedItem), x.scores = none) ∧
    (jsTrim ([] : List Char) ≠ [] →
      ∀ x ∈ ([⟨c8chunk, none⟩] : List RankedItem), x.scores ≠ none) :=
  c9_score_fields_presence [] [] [c8chunk] 3 [⟨c8chunk, none⟩] (by decide)

/-! ## Chunker (`chunkText` in `src/frontend/src/app/layout.tsx`) -/

/-- Terminal punctuation of the sentence regex `[.!?]`. -/
def isSentencePunct (c : Char) : Bool := c = '.' ∨ c = '!' ∨ c = '?'

/-- `[A-Z]` of the regex lookahead (no unicode flag: ASCII only). -/
def isUpperAscii (c : Char) : Bool := 'A' ≤ c ∧ c ≤ 'Z'

/-- `text.split(/(?<=[.!?])\s+(?=[A-Z])|(?<=[.!?])\s*$/g)`: after terminal
punctuation, a non-empty whitespace run followed by an ASCII uppercase
letter is a separator (the uppercase letter is not consumed), and trailing
whitespace after terminal punctuation at end of string is a separator that
leaves a final empty piece.  `acc` holds the current piece reversed; each
step consumes at least one character so `fuel = text.length + 1` never runs
out. -/
def splitSentencesAux : Nat → List Char → List Char → List (List Char)
  | 0, acc, _ => [acc.reverse]
  | _ + 1, acc, [] => [acc.reverse]
  | fuel + 1, acc, c :: rest =>
    if isSentencePunct c then
      let ws := rest.takeWhile jsWs
      match rest.drop ws.length with
      | [] => [(c :: acc).reverse, []]
      | a :: after =>
        if ws.length > 0 ∧ isUpperAscii a then
          (c :: acc).reverse :: splitSentencesAux fuel [] (a :: after)
        else
          splitSentencesAux fuel (c :: acc) rest
    else
      splitSentencesAux fuel (c :: acc) rest

def splitSentences (text : List Char) : List (List Char) :=
  splitSentencesAux (text.length + 1) [] text

/-- `s.slice(-k)` for a non-negative JS number `k`: the last `k` characters,
except that `slice(-0)` is `slice(0)`, the whole string. -/
def jsSliceFromEnd (l : List Char) (k : Nat) : List Char :=
  if k = 0 then l else l.drop (l.length - k)

/-- The sentence-accumulation loop of `chunkText`.  `previousChunk` is dead
across iterations in the source (it is assigned and used within the same
push), so it is inlined.  `Math.floor(previousChunk.length *
(overlapPercent / 100))` is modelled by exact natural division, which
agrees with the double computation for the lengths and percentages in
scope. -/
def chunkLoop (targetSize overlapPercent : Nat) :
    List (List Char) → List (List Char) → List Char → List (List Char) × List Char
  | [], chunks, current => (chunks, current)
  | s :: rest, chunks, current =>
    let testChunk := current ++ (if current = [] then [] else [' ']) ++ s
    if testChunk.length > targetSize ∧ current.length > 0 then
      if 100 < (jsTrim current).length then
        chunkLoop targetSize overlapPercent rest (chunks ++ [current])
          (jsSliceFromEnd current (current.length * overlapPercent / 100) ++ ' ' :: s)
      else
        chunkLoop targetSize overlapPercent rest chunks testChunk
    else
      chunkLoop targetSize overlapPercent rest chunks testChunk

/-- `chunkText` from layout.tsx: sentence split, greedy accumulation with
overlap seeding, final-buffer push when its trimmed length exceeds 100, and
the whole-text fallback. -/
def chunkText (text : List Char) (targetSize overlapPercent : Nat) : List (List Char) :=
  if jsTrim text = [] then []
  else
    let sentences := (splitSentences text).filter (fun s => jsTrim s ≠ [])
    if sentences = [] then []
    else
      let r := chunkLoop targetSize overlapPercent sentences [] []
      let chunks := if 100 < (jsTrim r.2).length then r.1 ++ [r.2] else r.1
      if chunks = [] ∧ 100 < (jsTrim text).length then [text] else chunks

/-- Length of the longest sentence of the input, as split (and filtered)
by `chunkText` itself. -/
def longestSentenceLen (text : List Char) : Nat :=
  (((splitSentences text).filter (fun s => jsTrim s ≠ [])).map List.length).foldr Nat.max 0

theorem length_dropWhile_le (p : Char → Bool) (l : List Char) :
    (l.dropWhile p).length ≤ l.length := by
  induction l with
  | nil => simp
  | cons a l ih =>
    by_cases h : p a
    · rw [List.dropWhile_cons_of_pos h]
      exact le_trans ih (Nat.le_succ _)
    · rw [List.dropWhile_cons_of_neg h]

theorem jsTrim_length_le (cs : List Char) : (jsTrim cs).length ≤ cs.length := by
  unfold jsTrim
  calc (((cs.dropWhile jsWs).reverse.dropWhile jsWs).reverse).length
      = ((cs.dropWhile jsWs).reverse.dropWhile jsWs).length := List.length_reverse _
    _ ≤ (cs.dropWhile jsWs).reverse.length := length_dropWhile_le _ _
    _ = (cs.dropWhile jsWs).length := List.length_reverse _
    _ ≤ cs.length := length_dropWhile_le _ _

/-- Every chunk the loop ever pushes has trimmed length above 100. -/
theorem chunkLoop_inv (ts op : Nat) (ss : List (List Char)) :
    ∀ (chunks : List (List Char)) (current : List Char),
      (∀ c ∈ chunks, 100 < (jsTrim c).length) →
      ∀ c ∈ (chunkLoop ts op ss chunks current).1, 100 < (jsTrim c).length := by
  induction ss with
  | nil => intro chunks current h c hc; exact h c hc
  | cons s rest ih =>
    intro chunks current h c hc
    unfold chunkLoop at hc
    by_cases h1 : (current ++ (if current = [] then [] else [' ']) ++ s).length > ts
        ∧ current.length > 0
    · rw [if_pos h1] at hc
      by_cases h2 : 100 < (jsTrim current).length
      · rw [if_pos h2] at hc
        refine ih _ _ ?_ c hc
        intro d hd
        rcases List.mem_append.mp hd with hd | hd
        · exact h d hd
        · rw [List.mem_singleton.mp hd]; exact h2
      · rw [if_neg h2] at hc
        exact ih _ _ h c hc
    · rw [if_neg h1] at hc
      exact ih _ _ h c hc

/-! ### Claim C5 -/

/-- The C5 counterexample input: a 120-character sentence, a second
120-character sentence and a tiny third one. -/
def cexC5S1 : List Char := List.replicate 119 'a' ++ ['.']

def cexC5S2 : List Char := 'B' :: List.replicate 118 'a' ++ ['.']

def cexC5S3 : List Char := ['C', '.']

def cexC5Text : List Char := cexC5S1 ++ ' ' :: cexC5S2 ++ ' ' :: cexC5S3

/-- Claim C5, counterexample: for `chunkText cexC5Text 10 30` (input length
244 > 100, longest sentence 120) the second emitted chunk is the
overlap-seeded buffer of length 157 > 10 + 120, so the claimed upper bound
`targetSize + longest sentence length` fails. -/
theorem c5_chunk_upper_bound_cex :
    100 < cexC5Text.length ∧
    ¬ (∀ c ∈ chunkText cexC5Text 10 30,
        c.length ≤ 10 + longestSentenceLen cexC5Text) := by decide

/-- Claim C5, amended: every chunk emitted by `chunkText` (for any input
and parameters) has trimmed length above 100 and hence length above 100;
sub-100-character chunks are never emitted.  The claimed upper bound
`targetSize + longest sentence length` does not hold (see the
counterexample), because an overlap-seeded buffer already holds
`overlapPercent`% of the previous chunk before the next sentence is
appended. -/
theorem c5_chunks_exceed_min_length (text : List Char) (ts op : Nat) (c : List Char)
    (hc : c ∈ chunkText text ts op) :
    100 < (jsTrim c).length ∧ 100 < c.length := by
  have main : 100 < (jsTrim c).length := by
    unfold chunkText at hc
    by_cases h0 : jsTrim text = []
    · rw [if_pos h0] at hc; simp at hc
    · rw [if_neg h0] at hc
      by_cases h1 : ((splitSentences text).filter (fun s => jsTrim s ≠ [])) = []
      · rw [if_pos h1] at hc; simp at hc
      · rw [if_neg h1] at hc
        set r := chunkLoop ts op ((splitSentences text).filter (fun s => jsTrim s ≠ [])) [] []
          with hr
        set chunksV := if 100 < (jsTrim r.2).length then r.1 ++ [r.2] else r.1 with hv
        by_cases h2 : chunksV = [] ∧ 100 < (jsTrim text).length
        · rw [if_pos h2] at hc
          rw [List.mem_singleton.mp hc]
          exact h2.2
        · rw [if_neg h2] at hc
          have base : ∀ d ∈ r.1, 100 < (jsTrim d).length := by
            intro d hd
            exact chunkLoop_inv ts op _ [] [] (by simp) d (hr ▸ hd)
          by_cases h3 : 100 < (jsTrim r.2).length
          · rw [if_pos h3] at hc
            rcases List.mem_append.mp hc with hd | hd
            · exact base c hd
            · rw [List.mem_singleton.mp hd]; exact h3
          · rw [if_neg h3] at hc
            exact base c hc
  exact ⟨main, lt_of_lt_of_le main (jsTrim_length_le c)⟩

/-- Witness for the amended C5 at the concrete 244-character input with the
default parameters (one emitted chunk, the whole accumulated buffer). -/
theorem c5_chunks_exceed_min_length_witness :
    100 < (jsTrim ((chunkText cexC5Text 1500 30).headD [])).length ∧
    100 < ((chunkText cexC5Text 1500 30).headD []).length :=
  c5_chunks_exceed_min_length cexC5Text 1500 30 _ (by decide)

/-! ## JSON transport (`JSON.stringify` / `JSON.parse` as used by
`src/frontend/src/lib/storage.ts`)

JSON numbers are modelled syntactically as exact decimal fixed-point
values `DecNum = (m, e)` denoting `m / 10^e`; this is the value set that
`JSON.stringify` produces for doubles (every double prints as a finite
decimal) and that `JSON.parse` reads back. -/

/-- A JSON number `m / 10^e`. -/
abbrev DecNum := Int × Nat

/-- A parsed JSON value.  Object member lists keep source order and may
contain duplicate keys (as `JSON.parse` sees them before last-wins lookup). -/
inductive Json where
  | null : Json
  | bool (b : Bool) : Json
  | num (d : DecNum) : Json
  | str (s : List Char) : Json
  | arr (elems : List Json) : Json
  | obj (members : List (List Char × Json)) : Json

/-- JSON insignificant whitespace (RFC 8259: space, tab, newline, carriage
return), as accepted by `JSON.parse`. -/
def jsonWsChar (c : Char) : Bool := c = ' ' ∨ c = '\t' ∨ c = '\n' ∨ c = '\r'

def skipWs (cs : List Char) : List Char := cs.dropWhile jsonWsChar

/-- Lowercase hex digit, as emitted by `JSON.stringify`'s `\u00XX` escapes. -/
def hexChar (n : Nat) : Char :=
  if n < 10 then Char.ofNat (48 + n) else Char.ofNat (87 + n)

/-- Hex digit value (both cases accepted, as by `JSON.parse`). -/
def hexVal (c : Char) : Option Nat :=
  if '0' ≤ c ∧ c ≤ '9' then some (c.toNat - 48)
  else if 'a' ≤ c ∧ c ≤ 'f' then some (c.toNat - 87)
  else if 'A' ≤ c ∧ c ≤ 'F' then some (c.toNat - 55)
  else none

/-- `JSON.stringify`'s escaping of one string character: `"` and `\` get a
backslash, the named control escapes are used where they exist, any other
control character becomes `\u00XX`, everything else is emitted verbatim. -/
def escapeChar (c : Char) : List Char :=
  if c = '"' then ['\\', '"']
  else if c = '\\' then ['\\', '\\']
  else if c = '\x08' then ['\\', 'b']
  else if c = '\t' then ['\\', 't']
  else if c = '\n' then ['\\', 'n']
  else if c = '\x0c' then ['\\', 'f']
  else if c = '\r' then ['\\', 'r']
  else if c.toNat < 32 then ['\\', 'u', '0', '0', hexChar (c.toNat / 16), hexChar (c.toNat % 16)]
  else [c]

def escapeString : List Char → List Char
  | [] => []
  | c :: cs => escapeChar c ++ escapeString cs

def stringifyStr (s : List Char) : List Char := '"' :: escapeString s ++ ['"']

/-- Big-endian decimal digits of a positive natural; `fuel ≥ n` suffices. -/
def natDigitsAux : Nat → Nat → List Char
  | 0, _ => []
  | _ + 1, 0 => []
  | fuel + 1, n + 1 =>
    natDigitsAux fuel ((n + 1) / 10) ++ [Char.ofNat (48 + (n + 1) % 10)]

def charDigits (n : Nat) : List Char := if n = 0 then ['0'] else natDigitsAux n n

def digitVal (c : Char) : Nat := c.toNat - 48

def natFromDigits (ds : List Char) : Nat := ds.foldl (fun a c => a * 10 + digitVal c) 0

/-- The decimal text of a JSON number `(m, e)`: the digits of `|m|`
left-padded with zeros to at least `e + 1` digits, with a decimal point
inserted `e` places from the right when `e > 0`, and a leading minus for
negative `m`. -/
def stringifyNum (d : DecNum) : List Char :=
  let sign : List Char := if d.1 < 0 then ['-'] else []
  let ds := charDigits d.1.natAbs
  let pads := List.replicate (d.2 + 1 - ds.length) '0' ++ ds
  if d.2 = 0 then sign ++ pads
  else sign ++ pads.take (pads.length - d.2) ++ '.' :: pads.drop (pads.length - d.2)

def numsSep : List DecNum → List Char
  | [] => [']']
  | n :: t => ',' :: stringifyNum n ++ numsSep t

def stringifyArrNums : List DecNum → List Char
  | [] => ['[', ']']
  | n :: t => '[' :: stringifyNum n ++ numsSep t

/-- The named single-character escapes accepted by `JSON.parse`. -/
def unescapeChar : Char → Option Char
  | '"' => some '"'
  | '\\' => some '\\'
  | '/' => some '/'
  | 'b' => some '\x08'
  | 'f' => some '\x0c'
  | 'n' => some '\n'
  | 'r' => some '\r'
  | 't' => some '\t'
  | _ => none

/-- Parse the body of a JSON string after the opening quote.  Raw control
characters are rejected (RFC 8259); `\uXXXX` escapes are decoded, with
codes that are not unicode scalar values rejected (JS would produce a lone
surrogate UTF-16 unit, which `List Char` cannot carry; no input in scope
contains one). -/
def parseStrBody : List Char → Option (List Char × List Char)
  | [] => none
  | c :: cs =>
    if c = '"' then some ([], cs)
    else if c = '\\' then
      match cs with
      | [] => none
      | e :: rest =>
        if e = 'u' then
          match rest with
          | h1 :: h2 :: h3 :: h4 :: rest2 => do
            let v1 ← hexVal h1
            let v2 ← hexVal h2
            let v3 ← hexVal h3
            let v4 ← hexVal h4
            let code := ((v1 * 16 + v2) * 16 + v3) * 16 + v4
            if code < 0xd800 ∨ (0xdfff < code ∧ code < 0x110000) then
              (parseStrBody rest2).map fun p => (Char.ofNat code :: p.1, p.2)
            else none
          | _ => none
        else do
          let c1 ← unescapeChar e
          (parseStrBody rest).map fun p => (c1 :: p.1, p.2)
    else if c.toNat < 32 then none
    else (parseStrBody cs).map fun p => (c :: p.1, p.2)
termination_by structural cs => cs

/-- Parse a JSON number (RFC 8259 grammar: optional minus, integer part
without redundant leading zero, optional fraction, optional exponent) into
its exact decimal value.  The sentinel `' '` returned by `headD` on an
empty rest matches none of the tested characters. -/
def parseNumber (cs : List Char) : Option (DecNum × List Char) :=
  let neg : Bool := cs.headD ' ' = '-'
  let cs1 := if neg then cs.tail else cs
  let ds := cs1.takeWhile Char.isDigit
  let cs2 := cs1.dropWhile Char.isDigit
  if ds = [] then none
  else if ds.headD ' ' = '0' ∧ ds.length ≠ 1 then none
  else
    let hasPoint : Bool := cs2.headD ' ' = '.'
    let fs := if hasPoint then cs2.tail.takeWhile Char.isDigit else []
    let cs4 := if hasPoint then cs2.tail.dropWhile Char.isDigit else cs2
    if hasPoint ∧ fs = [] then none
    else
      let mant : Nat := natFromDigits (ds ++ fs)
      let m0 : Int := if neg then -(mant : Int) else (mant : Int)
      let e0 : Nat := fs.length
      let hasExp : Bool := cs4.headD ' ' = 'e' ∨ cs4.headD ' ' = 'E'
      if hasExp then
        let cs5 := cs4.tail
        let esign : Int := if cs5.headD ' ' = '-' then -1 else 1
        let cs6 := if cs5.headD ' ' = '+' ∨ cs5.headD ' ' = '-' then cs5.tail else cs5
        let es := cs6.takeWhile Char.isDigit
        let cs7 := cs6.dropWhile Char.isDigit
        if es = [] then none
        else
          let k : Int := esign * (natFromDigits es : Int)
          if 0 ≤ k then
            let kn := k.toNat
            if kn ≤ e0 then some ((m0, e0 - kn), cs7)
            else some ((m0 * (10 : Int) ^ (kn - e0), 0), cs7)
          else some ((m0, e0 + (-k).toNat), cs7)
      else some ((m0, e0), cs4)

mutual

/-- One JSON value, `JSON.parse` style.  Each recursive descent consumes at
least one character first, so `fuel = input length + 1` never runs out. -/
def parseValue : Nat → List Char → Option (Json × List Char)
  | 0, _ => none
  | fuel + 1, cs =>
    match skipWs cs with
    | [] => none
    | c :: rest =>
      if c = '"' then (parseStrBody rest).map fun p => (Json.str p.1, p.2)
      else if c = '[' then
        match skipWs rest with
        | [] => none
        | c2 :: r2 =>
          if c2 = ']' then some (Json.arr [], r2)
          else do
            let (v, r3) ← parseValue fuel (c2 :: r2)
            let (vs, r4) ← parseArrTail fuel r3
            return (Json.arr (v :: vs), r4)
      else if c = '{' then
        match skipWs rest with
        | [] => none
        | c2 :: r2 =>
          if c2 = '}' then some (Json.obj [], r2)
          else if c2 = '"' then do
            let (key, r3) ← parseStrBody r2
            match skipWs r3 with
            | [] => none
            | c3 :: r4 =>
              if c3 = ':' then do
                let (v, r5) ← parseValue fuel r4
                let (kvs, r6) ← parseObjTail fuel r5
                return (Json.obj ((key, v) :: kvs), r6)
              else none
          else none
      else if c = 'n' then
        match rest with
        | 'u' :: 'l' :: 'l' :: r2 => some (Json.null, r2)
        | _ => none
      else if c = 't' then
        match rest with
        | 'r' :: 'u' :: 'e' :: r2 => some (Json.bool true, r2)
        | _ => none
      else if c = 'f' then
        match rest with
        | 'a' :: 'l' :: 's' :: 'e' :: r2 => some (Json.bool false, r2)
        | _ => none
      else (parseNumber (c :: rest)).map fun p => (Json.num p.1, p.2)

def parseArrTail : Nat → List Char → Option (List Json × List Char)
  | 0, _ => none
  | fuel + 1, cs =>
    match skipWs cs with
    | [] => none
    | c :: r =>
      if c = ']' then some ([], r)
      else if c = ',' then do
        let (v, r2) ← parseValue fuel r
        let (vs, r3) ← parseArrTail fuel r2
        return (v :: vs, r3)
      else none

def parseObjTail : Nat → List Char → Option (List (List Char × Json) × List Char)
  | 0, _ => none
  | fuel + 1, cs =>
    match skipWs cs with
    | [] => none
    | c :: r =>
      if c = '}' then some ([], r)
      else if c = ',' then
        match skipWs r with
        | [] => none
        | c2 :: r2 =>
          if c2 = '"' then do
            let (key, r3) ← parseStrBody r2
            match skipWs r3 with
            | [] => none
            | c3 :: r4 =>
              if c3 = ':' then do
                let (v, r5) ← parseValue fuel r4
                let (kvs, r6) ← parseObjTail fuel r5
                return ((key, v) :: kvs, r6)
              else none
          else none
      else none

end

/-- `JSON.parse`: one value surrounded by optional whitespace, nothing
else.  Any failure (including garbage text) is a thrown `SyntaxError`,
modelled as `none`. -/
def jsonParse (cs : List Char) : Option Json :=
  match parseValue (cs.length + 1) cs with
  | some (v, r) => if skipWs r = [] then some v else none
  | none => none

/-! ## Chunk store (`src/frontend/src/lib/storage.ts`)

The backing medium is the single JSONL file; its state is `none` when the
file does not exist and `some content` otherwise.  The write lock
serializes mutations, so the sequential functions below are the behavior
of each critical section. -/

/-- A chunk as passed to `appendChunk` (`Omit<DocumentChunk, 'id'>`):
`doc`, `text`, `embedding` and the transient `similarity` score. -/
structure StoredChunk where
  doc : List Char
  text : List Char
  embedding : List DecNum
  similarity : DecNum

/-- File contents, `[]` when the file does not exist (reading it would give
ENOENT, and appending creates it). -/
def fileData : Option (List Char) → List Char
  | none => []
  | some d => d

/-- `JSON.stringify` of the full chunk `{id, doc, text, embedding,
similarity}` in the property order produced by `{id: uuidv4(), ...chunk}`
with the ingest route's literal `{doc, text, embedding, similarity}`. -/
def recordLine (id : List Char) (c : StoredChunk) : List Char :=
  '{' :: stringifyStr "id".data ++ ':' :: stringifyStr id
  ++ ',' :: stringifyStr "doc".data ++ ':' :: stringifyStr c.doc
  ++ ',' :: stringifyStr "text".data ++ ':' :: stringifyStr c.text
  ++ ',' :: stringifyStr "embedding".data ++ ':' :: stringifyArrNums c.embedding
  ++ ',' :: stringifyStr "similarity".data ++ ':' :: stringifyNum c.similarity
  ++ ['}']

/-- The JSON value that `recordLine` denotes. -/
def recordJson (id : List Char) (c : StoredChunk) : Json :=
  Json.obj [("id".data, Json.str id), ("doc".data, Json.str c.doc),
    ("text".data, Json.str c.text),
    ("embedding".data, Json.arr (c.embedding.map Json.num)),
    ("similarity".data, Json.num c.similarity)]

/-- `appendChunk`'s effect on the file: `fs.appendFile` of the record line
plus a newline, creating the file when absent.  `id` is the fresh
`uuidv4()`. -/
def appendChunkState (st : Option (List Char)) (id : List Char) (c : StoredChunk) :
    Option (List Char) :=
  some (fileData st ++ recordLine id c ++ ['\n'])

/-- `data.split('\n')` on a `List Char`. -/
def splitOnNl : List Char → List (List Char)
  | [] => [[]]
  | c :: cs =>
    let r := splitOnNl cs
    if c = '\n' then [] :: r else (c :: r.headD []) :: r.tail

/-- The line list `loadAllChunks` iterates over:
`data.trim().split('\n').filter((line) => line.trim())`. -/
def processedLines (data : List Char) : List (List Char) :=
  (splitOnNl (jsTrim data)).filter (fun l => jsTrim l ≠ [])

/-- JS truthiness of `parsed.key` for a parsed JSON value: property access
on a missing key or on a non-object gives `undefined` (falsy); on `null` it
throws, which the surrounding `try` turns into a skip, so `false` is the
correct outcome for validation in every non-object case.  Duplicate keys:
`JSON.parse` keeps the last occurrence. -/
def getField : Json → List Char → Option Json
  | Json.obj kvs, key => kvs.foldl (fun acc kv => if kv.1 = key then some kv.2 else acc) none
  | _, _ => none

def truthy : Option Json → Bool
  | none => false
  | some Json.null => false
  | some (Json.bool b) => b
  | some (Json.num d) => d.1 ≠ 0
  | some (Json.str s) => s ≠ []
  | some (Json.arr _) => true
  | some (Json.obj _) => true

def isArrField : Option Json → Bool
  | some (Json.arr _) => true
  | _ => false

/-- The structural validation of one parsed line in `loadAllChunks`:
`parsed.id`, `parsed.doc` and `parsed.text` truthy and `parsed.embedding`
an array. -/
def validateChunk (j : Json) : Bool :=
  truthy (getField j "id".data) ∧ truthy (getField j "doc".data) ∧
    truthy (getField j "text".data) ∧ isArrField (getField j "embedding".data)

/-- One line of `loadAllChunks`'s loop: `JSON.parse` (any throw caught,
including the `null.id` access) then structural validation; `none` means
the line is skipped and counted. -/
def parseChunkLine (l : List Char) : Option Json :=
  match jsonParse l with
  | some j => if validateChunk j then some j else none
  | none => none

/-- The accumulation loop of `loadAllChunks` over the processed lines:
kept chunks in order, plus the number of skipped lines. -/
def loadLoop : List (List Char) → List Json × Nat
  | [] => ([], 0)
  | l :: ls =>
    let r := loadLoop ls
    match parseChunkLine l with
    | some j => (j :: r.1, r.2)
    | none => (r.1, r.2 + 1)

/-- `loadAllChunks`: ENOENT gives the empty result, otherwise the
line-by-line scan with error recovery. -/
def loadFile : Option (List Char) → List Json × Nat
  | none => ([], 0)
  | some data => loadLoop (processedLines data)

/-- The only error the modelled medium produces: `unlink` on a missing
file. -/
inductive FsErr where
  | enoent : FsErr
deriving DecidableEq

/-- `fs.unlink` on the store file. -/
def unlinkFs : Option (List Char) → Except FsErr (Option (List Char))
  | none => Except.error FsErr.enoent
  | some _ => Except.ok none

/-- `clearChunks`: unlink under the write lock, swallowing ENOENT. -/
def clearFile (st : Option (List Char)) : Except FsErr (Option (List Char)) :=
  match unlinkFs st with
  | Except.ok st2 => Except.ok st2
  | Except.error FsErr.enoent => Except.ok none

/-! ## Ingestion loop (`POST` in `src/frontend/src/app/api/ingest-url/route.ts`,
lines 410-438) -/

/-- The outcome of the per-chunk loop: final store state, `chunksCreated`,
and `failedChunks` (the indices pushed on embedding failure). -/
structure IngestOut where
  state : Option (List Char)
  created : Nat
  failed : List Nat

/-- The `for` loop of the ingest route: per chunk, embed (`none` models the
thrown provider error), then append with `similarity: 0`; a failure is
recorded in `failedChunks` and the loop continues.  `embed` is the
embedding collaborator, `ids i` the `uuidv4()` drawn at iteration `i`. -/
def ingestFrom (embed : List Char → Option (List DecNum)) (ids : Nat → List Char)
    (doc : List Char) : Nat → Option (List Char) → List (List Char) → IngestOut
  | _, st, [] => ⟨st, 0, []⟩
  | i, st, ch :: rest =>
    match embed ch with
    | none =>
      let r := ingestFrom embed ids doc (i + 1) st rest
      ⟨r.state, r.created, i :: r.failed⟩
    | some emb =>
      let st2 := appendChunkState st (ids i) ⟨doc, ch, emb, ((0 : Int), 0)⟩
      let r := ingestFrom embed ids doc (i + 1) st2 rest
      ⟨r.state, r.created + 1, r.failed⟩

/-- `ingestDocument`: chunk the raw text with the route's default
parameters, then run the per-chunk loop; the response carries
`chunks_created`, `chunks_total` and `failed_chunks`. -/
def ingestDocument (embed : List Char → Option (List DecNum)) (ids : Nat → List Char)
    (doc rawText : List Char) (st : Option (List Char)) : IngestOut × Nat :=
  let chunks := chunkText rawText 1500 30
  (ingestFrom embed ids doc 0 st chunks, chunks.length)

/-! ## Round-trip and loop lemmas, and the storage/ingestion claims -/

theorem toNat_ofNat_valid (k : Nat) (h : k < 55296) : (Char.ofNat k).toNat = k := by
  unfold Char.ofNat
  split
  · rfl
  · next hn => exact absurd (Or.inl h) hn

theorem natDigitsAux_all_digit (fuel : Nat) :
    ∀ n, ∀ c ∈ natDigitsAux fuel n, Char.isDigit c = true := by
  induction fuel with
  | zero => intro n c hc; simp [natDigitsAux] at hc
  | succ f ih =>
    intro n c hc
    cases n with
    | zero => simp [natDigitsAux] at hc
    | succ m =>
      rw [natDigitsAux] at hc
      rcases List.mem_append.mp hc with h | h
      · exact ih _ c h
      · rw [List.mem_singleton.mp h]
        have hr : (m + 1) % 10 < 10 := Nat.mod_lt _ (by omega)
        set r := (m + 1) % 10 with hrdef
        clear_value r
        interval_cases r <;> decide

theorem natDigitsAux_foldl (fuel : Nat) :
    ∀ n a, n ≤ fuel →
      List.foldl (fun acc c => acc * 10 + digitVal c) a (natDigitsAux fuel n) =
        a * 10 ^ (natDigitsAux fuel n).length + n := by
  induction fuel with
  | zero => intro n a h; interval_cases n; simp [natDigitsAux]
  | succ f ih =>
    intro n a h
    cases n with
    | zero => simp [natDigitsAux]
    | succ m =>
      rw [natDigitsAux, List.foldl_append, List.length_append]
      have hdiv : (m + 1) / 10 ≤ f := by omega
      rw [ih _ a hdiv]
      simp only [List.foldl_cons, List.foldl_nil, List.length_singleton]
      have hd : digitVal (Char.ofNat (48 + (m + 1) % 10)) = (m + 1) % 10 := by
        unfold digitVal
        rw [toNat_ofNat_valid _ (by omega)]
        omega
      rw [hd, pow_succ]
      have hdm : 10 * ((m + 1) / 10) + (m + 1) % 10 = m + 1 := Nat.div_add_mod _ _
      calc (a * 10 ^ (natDigitsAux f ((m + 1) / 10)).length + (m + 1) / 10) * 10 + (m + 1) % 10
          = a * (10 ^ (natDigitsAux f ((m + 1) / 10)).length * 10)
            + (10 * ((m + 1) / 10) + (m + 1) % 10) := by ring
        _ = a * (10 ^ (natDigitsAux f ((m + 1) / 10)).length * 10) + (m + 1) := by rw [hdm]

theorem natFromDigits_charDigits (n : Nat) : natFromDigits (charDigits n) = n := by
  unfold charDigits natFromDigits
  by_cases h : n = 0
  · subst h; decide
  · rw [if_neg h]
    have := natDigitsAux_foldl n n 0 (le_refl n)
    simpa using this

theorem charDigits_all_digit (n : Nat) : ∀ c ∈ charDigits n, Char.isDigit c = true := by
  unfold charDigits
  by_cases h : n = 0
  · subst h; intro c hc; simp at hc; subst hc; decide
  · rw [if_neg h]; exact natDigitsAux_all_digit n n

theorem charDigits_ne_nil (n : Nat) : charDigits n ≠ [] := by
  unfold charDigits
  by_cases h : n = 0
  · simp [h]
  · rw [if_neg h]
    cases hn : n with
    | zero => exact absurd hn h
    | succ m =>
      rw [natDigitsAux]
      simp

theorem natDigitsAux_ne_nil (fuel n : Nat) (h1 : 0 < n) (h2 : n ≤ fuel) :
    natDigitsAux fuel n ≠ [] := by
  cases fuel with
  | zero => omega
  | succ f =>
    cases n with
    | zero => omega
    | succ m =>
      rw [natDigitsAux]
      simp

theorem natDigitsAux_head_ne_zero (fuel : Nat) :
    ∀ n, 0 < n → n ≤ fuel → ∀ x : Char, (natDigitsAux fuel n).headD x ≠ '0' := by
  induction fuel with
  | zero => intro n h1 h2; omega
  | succ f ih =>
    intro n h1 h2
    cases n with
    | zero => omega
    | succ m =>
      rw [natDigitsAux]
      by_cases hq : (m + 1) / 10 = 0
      · intro x
        rw [hq]
        have hz : natDigitsAux f 0 = [] := by cases f <;> rfl
        rw [hz, List.nil_append]
        simp only [List.headD_cons]
        intro hcon
        have h2 := congrArg Char.toNat hcon
        rw [toNat_ofNat_valid _ (by omega)] at h2
        have h48 : ('0' : Char).toNat = 48 := rfl
        rw [h48] at h2
        omega
      · intro x
        have hne := natDigitsAux_ne_nil f ((m + 1) / 10) (by omega) (by omega)
        have hh := ih ((m + 1) / 10) (by omega) (by omega) x
        match hd : natDigitsAux f ((m + 1) / 10) with
        | [] => exact absurd hd hne
        | d :: ds =>
          rw [hd] at hh
          simpa using hh

theorem charDigits_head_of_pos (n : Nat) (h : 0 < n) (x : Char) :
    (charDigits n).headD x ≠ '0' := by
  unfold charDigits
  rw [if_neg (by omega)]
  exact natDigitsAux_head_ne_zero n n h (le_refl n) x

theorem isDigit_iff (c : Char) : c.isDigit = true ↔ 48 ≤ c.toNat ∧ c.toNat ≤ 57 := by
  unfold Char.isDigit
  simp only [ge_iff_le, Bool.and_eq_true, decide_eq_true_eq]
  exact Iff.rfl

/-- The characters after a serialized number that stop the number parser. -/
def numStop (rest : List Char) : Prop :=
  Char.isDigit (rest.headD ' ') = false ∧ rest.headD ' ' ≠ '.' ∧
    rest.headD ' ' ≠ 'e' ∧ rest.headD ' ' ≠ 'E' ∧ rest.headD ' ' ≠ '-'

theorem takeWhile_digits_append (ds rest : List Char)
    (hds : ∀ c ∈ ds, Char.isDigit c = true)
    (hr : Char.isDigit (rest.headD ' ') = false) :
    (ds ++ rest).takeWhile Char.isDigit = ds ∧
      (ds ++ rest).dropWhile Char.isDigit = rest := by
  induction ds with
  | nil =>
    simp only [List.nil_append]
    cases rest with
    | nil => exact ⟨rfl, rfl⟩
    | cons c t =>
      simp only [List.headD_cons] at hr
      exact ⟨by rw [List.takeWhile_cons_of_neg (by simp [hr])],
             by rw [List.dropWhile_cons_of_neg (by simp [hr])]⟩
  | cons d ds ih =>
    have hd : Char.isDigit d = true := hds d (List.mem_cons_self d ds)
    have := ih (fun c hc => hds c (List.mem_cons_of_mem d hc))
    exact ⟨by rw [List.cons_append, List.takeWhile_cons_of_pos (by simp [hd]), this.1],
           by rw [List.cons_append, List.dropWhile_cons_of_pos (by simp [hd]), this.2]⟩

theorem natFromDigits_append (ds es : List Char) :
    natFromDigits (ds ++ es) =
      List.foldl (fun a c => a * 10 + digitVal c) (natFromDigits ds) es := by
  unfold natFromDigits
  rw [List.foldl_append]

theorem natFromDigits_replicate_zero (k : Nat) (ds : List Char) :
    natFromDigits (List.replicate k '0' ++ ds) = natFromDigits ds := by
  induction k with
  | zero => simp
  | succ n ih =>
    rw [List.replicate_succ, List.cons_append]
    unfold natFromDigits at ih ⊢
    simp only [List.foldl_cons]
    have : digitVal '0' = 0 := rfl
    rw [this]
    simpa using ih

theorem digit_ne_special (c : Char) (h : c.isDigit = true) :
    c ≠ '-' ∧ c ≠ '.' ∧ c ≠ 'e' ∧ c ≠ 'E' := by
  refine ⟨?_, ?_, ?_, ?_⟩ <;> (intro he; subst he; exact absurd h (by decide))

theorem headD_take (ds : List Char) (k : Nat) (hk : 1 ≤ k) (x : Char) :
    (ds.take k).headD x = ds.headD x := by
  cases ds with
  | nil => simp
  | cons d t =>
    cases k with
    | zero => omega
    | succ n => simp [List.take_succ_cons]

theorem parseNumber_stringifyNum_nonneg_e0 (n : Nat) (rest : List Char) (hr : numStop rest) :
    parseNumber (stringifyNum ((n : Int), 0) ++ rest) = some (((n : Int), 0), rest) := by
  have hds_ne := charDigits_ne_nil n
  have hds_dig := charDigits_all_digit n
  have hL1 : 1 ≤ (charDigits n).length := List.length_pos.mpr hds_ne
  have hform : stringifyNum ((n : Int), 0) = charDigits n := by
    unfold stringifyNum
    simp [Int.natAbs_ofNat, Nat.sub_eq_zero_of_le hL1]
  rw [hform]
  obtain ⟨d0, ds', hds_eq⟩ := List.exists_cons_of_ne_nil hds_ne
  have hd0 : d0.isDigit = true := hds_dig d0 (by rw [hds_eq]; exact List.mem_cons_self _ _)
  have hspan := takeWhile_digits_append (charDigits n) rest hds_dig hr.1
  rw [hds_eq] at hspan
  unfold parseNumber
  rw [hds_eq]
  simp only [List.cons_append, List.headD_cons]
  have hneg : (decide (d0 = '-')) = false := by
    simp [(digit_ne_special d0 hd0).1]
  simp only [hneg, Bool.false_eq_true, if_false]
  rw [List.cons_append] at hspan
  rw [hspan.1, hspan.2]
  rw [if_neg (by simp : ¬ (d0 :: ds' = []))]
  have hlz : ¬ ((d0 :: ds').headD ' ' = '0' ∧ (d0 :: ds').length ≠ 1) := by
    rw [← hds_eq]
    by_cases hn : n = 0
    · subst hn
      intro hcon
      exact hcon.2 (by decide)
    · intro hcon
      exact charDigits_head_of_pos n (Nat.pos_of_ne_zero hn) ' ' hcon.1
  rw [if_neg hlz]
  have hp : (decide (rest.headD ' ' = '.')) = false := decide_eq_false hr.2.1
  have hexp : (decide (rest.headD ' ' = 'e' ∨ rest.headD ' ' = 'E')) = false :=
    decide_eq_false (by rintro (h | h) <;> [exact hr.2.2.1 h; exact hr.2.2.2.1 h])
  simp only [hp, hexp, Bool.false_eq_true, if_false, false_and, ite_false]
  rw [← hds_eq]
  simp [natFromDigits_charDigits n]

theorem parseNumber_stringifyNum_neg_e0 (n : Nat) (hn : 0 < n) (rest : List Char)
    (hr : numStop rest) :
    parseNumber (stringifyNum (-(n : Int), 0) ++ rest) = some ((-(n : Int), 0), rest) := by
  have hds_ne := charDigits_ne_nil n
  have hds_dig := charDigits_all_digit n
  have hL1 : 1 ≤ (charDigits n).length := List.length_pos.mpr hds_ne
  have hneglt : (-(n : Int)) < 0 := by omega
  have habs : (-(n : Int)).natAbs = n := by omega
  have hform : stringifyNum (-(n : Int), 0) = '-' :: charDigits n := by
    unfold stringifyNum
    simp only [habs, if_pos hneglt, Nat.sub_eq_zero_of_le hL1, List.replicate_zero,
      List.nil_append, ite_true]
    rfl
  rw [hform]
  have hspan := takeWhile_digits_append (charDigits n) rest hds_dig hr.1
  unfold parseNumber
  simp only [List.cons_append, List.headD_cons]
  simp only [decide_True, if_true, ite_true, List.tail_cons]
  rw [hspan.1, hspan.2]
  rw [if_neg hds_ne]
  have hlz : ¬ ((charDigits n).headD ' ' = '0' ∧ (charDigits n).length ≠ 1) := by
    intro hcon
    exact charDigits_head_of_pos n hn ' ' hcon.1
  rw [if_neg hlz]
  have hp : (decide (rest.headD ' ' = '.')) = false := decide_eq_false hr.2.1
  have hexp : (decide (rest.headD ' ' = 'e' ∨ rest.headD ' ' = 'E')) = false :=
    decide_eq_false (by rintro (h | h) <;> [exact hr.2.2.1 h; exact hr.2.2.2.1 h])
  simp only [hp, hexp, Bool.false_eq_true, if_false, false_and, ite_false]
  simp [natFromDigits_charDigits n]

theorem pads_facts (n e : Nat) :
    let pads := List.replicate (e + 1 - (charDigits n).length) '0' ++ charDigits n
    (∀ c ∈ pads, c.isDigit = true) ∧ natFromDigits pads = n ∧ e + 1 ≤ pads.length := by
  intro pads
  have hds_dig := charDigits_all_digit n
  have hL1 : 1 ≤ (charDigits n).length := List.length_pos.mpr (charDigits_ne_nil n)
  refine ⟨?_, ?_, ?_⟩
  · intro c hc
    rcases List.mem_append.mp hc with h | h
    · rw [List.eq_of_mem_replicate h]; decide
    · exact hds_dig c h
  · rw [natFromDigits_replicate_zero, natFromDigits_charDigits]
  · rw [List.length_append, List.length_replicate]
    omega

theorem parseNumber_stringifyNum_nonneg_epos (n e : Nat) (he : e ≠ 0) (rest : List Char)
    (hr : numStop rest) :
    parseNumber (stringifyNum ((n : Int), e) ++ rest) = some (((n : Int), e), rest) := by
  have hL1 : 1 ≤ (charDigits n).length := List.length_pos.mpr (charDigits_ne_nil n)
  obtain ⟨hpdig, hpval, hple⟩ := pads_facts n e
  set pads := List.replicate (e + 1 - (charDigits n).length) '0' ++ charDigits n with hpads
  set intp := pads.take (pads.length - e) with hintp
  set frac := pads.drop (pads.length - e) with hfrac
  have hiflen : intp.length = pads.length - e := by
    rw [hintp, List.length_take]
    omega
  have hfraclen : frac.length = e := by
    rw [hfrac, List.length_drop]
    omega
  have hint_ne : intp ≠ [] := by
    intro hcon
    have := congrArg List.length hcon
    rw [hiflen] at this
    simp at this
    omega
  have hfrac_ne : frac ≠ [] := by
    intro hcon
    have := congrArg List.length hcon
    rw [hfraclen] at this
    simp at this
    exact he this
  have hif : intp ++ frac = pads := List.take_append_drop _ _
  have hint_dig : ∀ c ∈ intp, c.isDigit = true := fun c hc =>
    hpdig c (List.mem_of_mem_take hc)
  have hfrac_dig : ∀ c ∈ frac, c.isDigit = true := fun c hc =>
    hpdig c (List.mem_of_mem_drop hc)
  have hform : stringifyNum ((n : Int), e) = intp ++ '.' :: frac := by
    unfold stringifyNum
    simp only [Int.natAbs_ofNat, if_neg he]
    rw [if_neg (by omega : ¬ ((n : Int) < 0))]
    simp [hintp, hfrac, hpads]
  rw [hform]
  obtain ⟨d0, ds', hint_eq⟩ := List.exists_cons_of_ne_nil hint_ne
  have hd0 : d0.isDigit = true := hint_dig d0 (by rw [hint_eq]; exact List.mem_cons_self _ _)
  have hspan1 := takeWhile_digits_append intp ('.' :: (frac ++ rest)) hint_dig
    (by rw [List.headD_cons]; decide)
  have hspan2 := takeWhile_digits_append frac rest hfrac_dig hr.1
  have hassoc : (intp ++ '.' :: frac) ++ rest = intp ++ '.' :: (frac ++ rest) := by
    simp
  rw [hassoc]
  unfold parseNumber
  rw [hint_eq]
  simp only [List.cons_append, List.headD_cons]
  have hneg : (decide (d0 = '-')) = false := by
    simp [(digit_ne_special d0 hd0).1]
  simp only [hneg, Bool.false_eq_true, if_false]
  rw [← List.cons_append, ← hint_eq]
  rw [hspan1.1, hspan1.2]
  rw [if_neg hint_ne]
  have hlz : ¬ (intp.headD ' ' = '0' ∧ intp.length ≠ 1) := by
    by_cases hone : pads.length - e = 1
    · intro hcon
      exact hcon.2 (by rw [hiflen, hone])
    · have hLgt : e + 1 < (charDigits n).length := by
        by_cases hc : (charDigits n).length ≤ e + 1
        · exfalso
          have : pads.length = e + 1 := by
            rw [hpads, List.length_append, List.length_replicate]
            omega
          omega
        · omega
      have hpads_eq : pads = charDigits n := by
        rw [hpads]
        have : e + 1 - (charDigits n).length = 0 := by omega
        rw [this]
        simp
      have hnpos : 0 < n := by
        by_contra hcon
        have : n = 0 := by omega
        subst this
        have : (charDigits 0).length = 1 := by decide
        omega
      intro hcon
      apply charDigits_head_of_pos n hnpos ' '
      rw [← headD_take (charDigits n) (pads.length - e) (by omega) ' ']
      rw [← hpads_eq]
      exact hcon.1
  rw [if_neg hlz]
  have hp : (decide ((('.' :: (frac ++ rest)).headD ' ') = '.')) = true := by
    rw [List.headD_cons]
    decide
  simp only [hp, decide_True, if_true, ite_true, List.headD_cons, List.tail_cons]
  rw [hspan2.1, hspan2.2]
  rw [if_neg (by
    intro hcon
    exact hfrac_ne hcon.2)]
  have hexp : (decide (rest.headD ' ' = 'e' ∨ rest.headD ' ' = 'E')) = false :=
    decide_eq_false (by rintro (h | h) <;> [exact hr.2.2.1 h; exact hr.2.2.2.1 h])
  simp only [hexp, Bool.false_eq_true, if_false, ite_false]
  rw [hif, hpval, hfraclen]

theorem parseNumber_stringifyNum_neg_epos (n e : Nat) (hn : 0 < n) (he : e ≠ 0)
    (rest : List Char) (hr : numStop rest) :
    parseNumber (stringifyNum (-(n : Int), e) ++ rest) = some ((-(n : Int), e), rest) := by
  have hL1 : 1 ≤ (charDigits n).length := List.length_pos.mpr (charDigits_ne_nil n)
  obtain ⟨hpdig, hpval, hple⟩ := pads_facts n e
  set pads := List.replicate (e + 1 - (charDigits n).length) '0' ++ charDigits n with hpads
  set intp := pads.take (pads.length - e) with hintp
  set frac := pads.drop (pads.length - e) with hfrac
  have hiflen : intp.length = pads.length - e := by
    rw [hintp, List.length_take]
    omega
  have hfraclen : frac.length = e := by
    rw [hfrac, List.length_drop]
    omega
  have hint_ne : intp ≠ [] := by
    intro hcon
    have := congrArg List.length hcon
    rw [hiflen] at this
    simp at this
    omega
  have hfrac_ne : frac ≠ [] := by
    intro hcon
    have := congrArg List.length hcon
    rw [hfraclen] at this
    simp at this
    exact he this
  have hif : intp ++ frac = pads := List.take_append_drop _ _
  have hint_dig : ∀ c ∈ intp, c.isDigit = true := fun c hc =>
    hpdig c (List.mem_of_mem_take hc)
  have hfrac_dig : ∀ c ∈ frac, c.isDigit = true := fun c hc =>
    hpdig c (List.mem_of_mem_drop hc)
  have hneglt : (-(n : Int)) < 0 := by omega
  have habs : (-(n : Int)).natAbs = n := by omega
  have hform : stringifyNum (-(n : Int), e) = '-' :: (intp ++ '.' :: frac) := by
    unfold stringifyNum
    simp only [habs, if_neg he, if_pos hneglt]
    simp [hintp, hfrac, hpads]
  rw [hform]
  have hspan1 := takeWhile_digits_append intp ('.' :: (frac ++ rest)) hint_dig
    (by rw [List.headD_cons]; decide)
  have hspan2 := takeWhile_digits_append frac rest hfrac_dig hr.1
  unfold parseNumber
  simp only [List.cons_append, List.headD_cons]
  simp only [decide_True, if_true, ite_true, List.tail_cons]
  have hassoc : intp ++ '.' :: frac ++ rest = intp ++ '.' :: (frac ++ rest) := by
    simp
  rw [hassoc, hspan1.1, hspan1.2]
  rw [if_neg hint_ne]
  have hlz : ¬ (intp.headD ' ' = '0' ∧ intp.length ≠ 1) := by
    by_cases hone : pads.length - e = 1
    · intro hcon
      exact hcon.2 (by rw [hiflen, hone])
    · have hLgt : e + 1 < (charDigits n).length := by
        by_cases hc : (charDigits n).length ≤ e + 1
        · exfalso
          have : pads.length = e + 1 := by
            rw [hpads, List.length_append, List.length_replicate]
            omega
          omega
        · omega
      have hpads_eq : pads = charDigits n := by
        rw [hpads]
        have : e + 1 - (charDigits n).length = 0 := by omega
        rw [this]
        simp
      intro hcon
      apply charDigits_head_of_pos n hn ' '
      rw [← headD_take (charDigits n) (pads.length - e) (by omega) ' ']
      rw [← hpads_eq]
      exact hcon.1
  rw [if_neg hlz]
  have hp : (decide ((('.' :: (frac ++ rest)).headD ' ') = '.')) = true := by
    rw [List.headD_cons]
    decide
  simp only [hp, decide_True, if_true, ite_true, List.headD_cons, List.tail_cons]
  rw [hspan2.1, hspan2.2]
  rw [if_neg (by
    intro hcon
    exact hfrac_ne hcon.2)]
  have hexp : (decide (rest.headD ' ' = 'e' ∨ rest.headD ' ' = 'E')) = false :=
    decide_eq_false (by rintro (h | h) <;> [exact hr.2.2.1 h; exact hr.2.2.2.1 h])
  simp only [hexp, Bool.false_eq_true, if_false, ite_false]
  rw [hif, hpval, hfraclen]

theorem parseNumber_stringifyNum (d : DecNum) (rest : List Char) (hr : numStop rest) :
    parseNumber (stringifyNum d ++ rest) = some (d, rest) := by
  obtain ⟨m, e⟩ := d
  by_cases hm : m < 0
  · have habs : m = -(m.natAbs : Int) := by omega
    have hpos : 0 < m.natAbs := by omega
    rw [habs]
    by_cases he : e = 0
    · subst he
      exact parseNumber_stringifyNum_neg_e0 m.natAbs hpos rest hr
    · exact parseNumber_stringifyNum_neg_epos m.natAbs e hpos he rest hr
  · have habs : m = (m.natAbs : Int) := by omega
    rw [habs]
    by_cases he : e = 0
    · subst he
      exact parseNumber_stringifyNum_nonneg_e0 m.natAbs rest hr
    · exact parseNumber_stringifyNum_nonneg_epos m.natAbs e he rest hr

theorem hexVal_hexChar (k : Nat) (h : k < 16) : hexVal (hexChar k) = some k := by
  interval_cases k <;> rfl

theorem parseStrBody_escapeChar (c : Char) (tail : List Char) :
    parseStrBody (escapeChar c ++ tail) =
      (parseStrBody tail).map fun p => (c :: p.1, p.2) := by
  by_cases h1 : c = '"'
  · subst h1; rw [parseStrBody.eq_def]; simp [escapeChar, unescapeChar]
  · by_cases h2 : c = '\\'
    · subst h2; rw [parseStrBody.eq_def]; simp [escapeChar, unescapeChar]
    · by_cases h3 : c = '\x08'
      · subst h3; rw [parseStrBody.eq_def]; simp [escapeChar, unescapeChar]
      · by_cases h4 : c = '\t'
        · subst h4; rw [parseStrBody.eq_def]; simp [escapeChar, unescapeChar]
        · by_cases h5 : c = '\n'
          · subst h5; rw [parseStrBody.eq_def]; simp [escapeChar, unescapeChar]
          · by_cases h6 : c = '\x0c'
            · subst h6; rw [parseStrBody.eq_def]; simp [escapeChar, unescapeChar]
            · by_cases h7 : c = '\r'
              · subst h7; rw [parseStrBody.eq_def]; simp [escapeChar, unescapeChar]
              · by_cases h8 : c.toNat < 32
                · unfold escapeChar
                  rw [if_neg h1, if_neg h2, if_neg h3, if_neg h4, if_neg h5, if_neg h6,
                    if_neg h7, if_pos h8]
                  have e1 : hexVal (hexChar (c.toNat / 16)) = some (c.toNat / 16) :=
                    hexVal_hexChar _ (by omega)
                  have e2 : hexVal (hexChar (c.toNat % 16)) = some (c.toNat % 16) :=
                    hexVal_hexChar _ (by omega)
                  show parseStrBody ('\\' :: 'u' :: '0' :: '0' :: hexChar (c.toNat / 16) ::
                    hexChar (c.toNat % 16) :: tail) = _
                  have ev0 : hexVal '0' = some 0 := rfl
                  rw [parseStrBody.eq_def]
                  simp [ev0, e1, e2]
                  have hcode : c.toNat / 16 * 16 + c.toNat % 16 = c.toNat := by omega
                  rw [hcode, if_pos (Or.inl (by omega : c.toNat < 55296)), Char.ofNat_toNat]
                · unfold escapeChar
                  rw [if_neg h1, if_neg h2, if_neg h3, if_neg h4, if_neg h5, if_neg h6,
                    if_neg h7, if_neg h8]
                  show parseStrBody (c :: tail) = _
                  rw [parseStrBody.eq_def]
                  simp [h1, h2, h8]

theorem parseStrBody_escapeString (s rest : List Char) :
    parseStrBody (escapeString s ++ '"' :: rest) = some (s, rest) := by
  induction s with
  | nil =>
    show parseStrBody ('"' :: rest) = some ([], rest)
    rw [parseStrBody.eq_def]
    simp
  | cons c s ih =>
    rw [escapeString, List.append_assoc, parseStrBody_escapeChar, ih]
    rfl

theorem skipWs_cons (c : Char) (cs : List Char) (h : jsonWsChar c = false) :
    skipWs (c :: cs) = c :: cs := by
  unfold skipWs
  rw [List.dropWhile_cons_of_neg (by simp [h])]

theorem parseValue_str (fuel : Nat) (s rest : List Char) :
    parseValue (fuel + 1) (stringifyStr s ++ rest) = some (Json.str s, rest) := by
  have : stringifyStr s ++ rest = '"' :: (escapeString s ++ '"' :: rest) := by
    unfold stringifyStr
    simp
  rw [this, parseValue.eq_def]
  have hsk : skipWs ('"' :: (escapeString s ++ '"' :: rest)) =
      '"' :: (escapeString s ++ '"' :: rest) := skipWs_cons _ _ (by decide)
  simp [hsk, parseStrBody_escapeString]

theorem stringifyNum_head_digit_or_minus (d : DecNum) :
    (stringifyNum d).headD ' ' = '-' ∨ Char.isDigit ((stringifyNum d).headD ' ') = true := by
  obtain ⟨m, e⟩ := d
  unfold stringifyNum
  by_cases hm : m < 0
  · left
    by_cases he : e = 0 <;> simp [hm, he]
  · simp only [hm, if_false, ite_false, List.nil_append]
    right
    have hne : charDigits m.natAbs ≠ [] := charDigits_ne_nil _
    have hdig := charDigits_all_digit m.natAbs
    have hpads : ∀ c ∈ List.replicate (e + 1 - (charDigits m.natAbs).length) '0' ++
        charDigits m.natAbs, Char.isDigit c = true := by
      intro c hc
      rcases List.mem_append.mp hc with h | h
      · rw [List.eq_of_mem_replicate h]; decide
      · exact hdig c h
    by_cases he : e = 0
    · subst he
      simp only [ite_true]
      have h1 : 1 ≤ (charDigits m.natAbs).length := List.length_pos.mpr hne
      rw [Nat.sub_eq_zero_of_le h1]
      simp only [List.replicate_zero, List.nil_append]
      obtain ⟨d0, ds', hds⟩ := List.exists_cons_of_ne_nil hne
      rw [hds]
      exact hdig d0 (by rw [hds]; exact List.mem_cons_self _ _)
    · rw [if_neg he]
      set pads := List.replicate (e + 1 - (charDigits m.natAbs).length) '0' ++
        charDigits m.natAbs with hp
      have hplen : e + 1 ≤ pads.length := by
        rw [hp, List.length_append, List.length_replicate]
        have h1 : 1 ≤ (charDigits m.natAbs).length := List.length_pos.mpr hne
        omega
      have htlen : (pads.take (pads.length - e)).length = pads.length - e := by
        rw [List.length_take]
        omega
      have htne : pads.take (pads.length - e) ≠ [] := by
        intro hcon
        have := congrArg List.length hcon
        rw [htlen] at this
        simp at this
        omega
      obtain ⟨d0, ds', hds⟩ := List.exists_cons_of_ne_nil htne
      rw [hds]
      simp only [List.cons_append, List.headD_cons]
      exact hpads d0 (List.mem_of_mem_take (by rw [hds]; exact List.mem_cons_self _ _))

theorem char_notin_of_digit (c : Char) (h : Char.isDigit c = true)
    (target : Char) (ht : Char.isDigit target = false) : c ≠ target := by
  intro he
  subst he
  rw [h] at ht
  exact Bool.noConfusion ht

theorem jsonWsChar_eq_false_of_digit (c : Char) (h : Char.isDigit c = true) :
    jsonWsChar c = false := by
  obtain ⟨h1, h2⟩ := (isDigit_iff c).mp h
  unfold jsonWsChar
  refine decide_eq_false ?_
  rintro (rfl | rfl | rfl | rfl | rfl | rfl | rfl | rfl) <;> exact absurd h (by decide)

theorem stringifyNum_ne_nil (d : DecNum) : stringifyNum d ≠ [] := by
  intro hcon
  rcases stringifyNum_head_digit_or_minus d with h | h
  · rw [hcon] at h
    exact absurd h (by decide)
  · rw [hcon] at h
    exact absurd h (by decide)

theorem parseValue_num (fuel : Nat) (d : DecNum) (rest : List Char) (hr : numStop rest) :
    parseValue (fuel + 1) (stringifyNum d ++ rest) = some (Json.num d, rest) := by
  obtain ⟨c0, t0, hd⟩ := List.exists_cons_of_ne_nil (stringifyNum_ne_nil d)
  have hdisp : c0 = '-' ∨ Char.isDigit c0 = true := by
    have := stringifyNum_head_digit_or_minus d
    rw [hd] at this
    simpa using this
  have hws : jsonWsChar c0 = false := by
    rcases hdisp with h | h
    · subst h; decide
    · exact jsonWsChar_eq_false_of_digit c0 h
  have hne : ∀ target : Char, Char.isDigit target = false → target ≠ '-' → c0 ≠ target := by
    intro target ht hm
    rcases hdisp with h | h
    · subst h; exact fun he => hm he.symm
    · exact char_notin_of_digit c0 h target ht
  rw [hd, List.cons_append, parseValue.eq_def]
  have hsk : skipWs (c0 :: (t0 ++ rest)) = c0 :: (t0 ++ rest) := skipWs_cons _ _ hws
  simp only [hsk]
  rw [if_neg (hne '"' (by decide) (by decide)), if_neg (hne '[' (by decide) (by decide)),
    if_neg (hne '{' (by decide) (by decide)), if_neg (hne 'n' (by decide) (by decide)),
    if_neg (hne 't' (by decide) (by decide)), if_neg (hne 'f' (by decide) (by decide))]
  rw [← List.cons_append, ← hd, parseNumber_stringifyNum d rest hr]
  rfl

theorem numsSep_headD (t : List DecNum) :
    (numsSep t).headD ' ' = ']' ∨ (numsSep t).headD ' ' = ',' := by
  cases t with
  | nil => left; rfl
  | cons n t => right; rfl

theorem numStop_numsSep (t : List DecNum) (rest : List Char) :
    numStop (numsSep t ++ rest) := by
  have hne : numsSep t ≠ [] := by
    cases t <;> simp [numsSep]
  obtain ⟨c0, t0, hd⟩ := List.exists_cons_of_ne_nil hne
  have hc0 := numsSep_headD t
  rw [hd] at hc0
  simp only [List.headD_cons] at hc0
  rw [hd]
  rcases hc0 with h | h <;> subst h <;>
    (simp only [numStop, List.cons_append, List.headD_cons]; decide)

theorem parseArrTail_numsSep (t : List DecNum) :
    ∀ (fuel : Nat), t.length + 1 ≤ fuel → ∀ rest : List Char,
      parseArrTail fuel (numsSep t ++ rest) = some (t.map Json.num, rest) := by
  induction t with
  | nil =>
    intro fuel hf rest
    match fuel, hf with
    | f + 1, _ =>
      rw [parseArrTail.eq_def]
      have hsk : skipWs (']' :: rest) = ']' :: rest := skipWs_cons _ _ (by decide)
      simp only [numsSep, List.cons_append, List.nil_append, hsk]
      simp
  | cons n t ih =>
    intro fuel hf rest
    cases fuel with
    | zero => simp at hf
    | succ f =>
      rw [parseArrTail.eq_def]
      have hsk : skipWs (',' :: (stringifyNum n ++ (numsSep t ++ rest))) =
          ',' :: (stringifyNum n ++ (numsSep t ++ rest)) := skipWs_cons _ _ (by decide)
      simp only [numsSep, List.cons_append, List.append_assoc, hsk]
      rw [if_neg (by decide : ¬ (',' : Char) = ']'), if_pos trivial]
      cases f with
      | zero => simp at hf
      | succ g =>
        rw [parseValue_num g n (numsSep t ++ rest) (numStop_numsSep t rest)]
        simp only [Option.pure_def, Option.bind_eq_bind, Option.some_bind]
        rw [ih (g + 1) (by simp at hf ⊢; omega) rest]
        simp

theorem parseValue_arrNums (ns : List DecNum) (fuel : Nat) (hf : ns.length + 1 ≤ fuel)
    (rest : List Char) :
    parseValue (fuel + 1) (stringifyArrNums ns ++ rest) =
      some (Json.arr (ns.map Json.num), rest) := by
  cases ns with
  | nil =>
    rw [parseValue.eq_def]
    have hsk : skipWs ('[' :: (']' :: rest)) = '[' :: (']' :: rest) :=
      skipWs_cons _ _ (by decide)
    have hsk2 : skipWs (']' :: rest) = ']' :: rest := skipWs_cons _ _ (by decide)
    simp only [stringifyArrNums, List.cons_append, List.nil_append, hsk, hsk2]
    simp
  | cons n t =>
    rw [parseValue.eq_def]
    obtain ⟨c0, t0, hd⟩ := List.exists_cons_of_ne_nil (stringifyNum_ne_nil n)
    have hdisp : c0 = '-' ∨ Char.isDigit c0 = true := by
      have := stringifyNum_head_digit_or_minus n
      rw [hd] at this
      simpa using this
    have hws : jsonWsChar c0 = false := by
      rcases hdisp with h | h
      · subst h; decide
      · exact jsonWsChar_eq_false_of_digit c0 h
    have hc0ne : c0 ≠ ']' := by
      rcases hdisp with h | h
      · subst h; decide
      · exact char_notin_of_digit c0 h ']' (by decide)
    have hsk : skipWs ('[' :: (stringifyNum n ++ (numsSep t ++ rest))) =
        '[' :: (stringifyNum n ++ (numsSep t ++ rest)) := skipWs_cons _ _ (by decide)
    have hsk2 : skipWs (stringifyNum n ++ (numsSep t ++ rest)) =
        stringifyNum n ++ (numsSep t ++ rest) := by
      rw [hd, List.cons_append]
      exact skipWs_cons _ _ hws
    simp only [stringifyArrNums, List.cons_append, List.append_assoc, hsk, hsk2]
    rw [hd]
    simp only [List.cons_append]
    rw [if_neg (by decide : ¬ ('[' : Char) = '"'), if_pos trivial]
    rw [if_neg hc0ne]
    rw [← List.cons_append, ← hd]
    cases fuel with
    | zero => simp at hf
    | succ f =>
      rw [parseValue_num f n (numsSep t ++ rest) (numStop_numsSep t rest)]
      simp only [Option.pure_def, Option.bind_eq_bind, Option.some_bind]
      rw [parseArrTail_numsSep t (f + 1) (by simp at hf ⊢; omega) rest]
      simp

theorem parseObjTail_close (f : Nat) (r : List Char) :
    parseObjTail (f + 1) ('}' :: r) = some ([], r) := by
  rw [parseObjTail.eq_def]
  have hsk := skipWs_cons '}' r (by decide)
  simp [hsk]

theorem parseObjTail_member (f : Nat) (key vtext : List Char) (v : Json)
    (tail : List Char) (kvs : List (List Char × Json)) (r : List Char)
    (hv : parseValue f (vtext ++ tail) = some (v, tail))
    (ht : parseObjTail f tail = some (kvs, r)) :
    parseObjTail (f + 1) (',' :: (stringifyStr key ++ ':' :: (vtext ++ tail))) =
      some ((key, v) :: kvs, r) := by
  have hassoc : stringifyStr key ++ ':' :: (vtext ++ tail) =
      '"' :: (escapeString key ++ '"' :: (':' :: (vtext ++ tail))) := by
    unfold stringifyStr
    simp
  rw [parseObjTail.eq_def, hassoc]
  have hsk1 : skipWs (',' :: ('"' :: (escapeString key ++ '"' :: (':' :: (vtext ++ tail))))) =
      ',' :: ('"' :: (escapeString key ++ '"' :: (':' :: (vtext ++ tail)))) :=
    skipWs_cons _ _ (by decide)
  have hsk2 : skipWs ('"' :: (escapeString key ++ '"' :: (':' :: (vtext ++ tail)))) =
      '"' :: (escapeString key ++ '"' :: (':' :: (vtext ++ tail))) :=
    skipWs_cons _ _ (by decide)
  have hsk3 : skipWs (':' :: (vtext ++ tail)) = ':' :: (vtext ++ tail) :=
    skipWs_cons _ _ (by decide)
  simp only [hsk1, hsk2]
  rw [if_neg (by decide : ¬ (',' : Char) = '}'), if_pos trivial, if_pos trivial]
  rw [parseStrBody_escapeString key (':' :: (vtext ++ tail))]
  simp only [Option.pure_def, Option.bind_eq_bind, Option.some_bind, hsk3]
  rw [if_pos trivial]
  rw [hv]
  simp only [Option.some_bind]
  rw [ht]
  simp

theorem parseValue_object_first (f : Nat) (key vtext : List Char) (v : Json)
    (tail : List Char) (kvs : List (List Char × Json)) (r : List Char)
    (hv : parseValue f (vtext ++ tail) = some (v, tail))
    (ht : parseObjTail f tail = some (kvs, r)) :
    parseValue (f + 1) ('{' :: (stringifyStr key ++ ':' :: (vtext ++ tail))) =
      some (Json.obj ((key, v) :: kvs), r) := by
  have hassoc : stringifyStr key ++ ':' :: (vtext ++ tail) =
      '"' :: (escapeString key ++ '"' :: (':' :: (vtext ++ tail))) := by
    unfold stringifyStr
    simp
  rw [parseValue.eq_def, hassoc]
  have hsk1 : skipWs ('{' :: ('"' :: (escapeString key ++ '"' :: (':' :: (vtext ++ tail))))) =
      '{' :: ('"' :: (escapeString key ++ '"' :: (':' :: (vtext ++ tail)))) :=
    skipWs_cons _ _ (by decide)
  have hsk2 : skipWs ('"' :: (escapeString key ++ '"' :: (':' :: (vtext ++ tail)))) =
      '"' :: (escapeString key ++ '"' :: (':' :: (vtext ++ tail))) :=
    skipWs_cons _ _ (by decide)
  have hsk3 : skipWs (':' :: (vtext ++ tail)) = ':' :: (vtext ++ tail) :=
    skipWs_cons _ _ (by decide)
  simp only [hsk1, hsk2]
  rw [if_neg (by decide : ¬ ('{' : Char) = '"'), if_neg (by decide : ¬ ('{' : Char) = '['),
    if_pos trivial]
  rw [if_neg (by decide : ¬ ('"' : Char) = '}'), if_pos trivial]
  rw [parseStrBody_escapeString key (':' :: (vtext ++ tail))]
  simp only [Option.pure_def, Option.bind_eq_bind, Option.some_bind, hsk3]
  rw [if_pos trivial]
  rw [hv]
  simp only [Option.some_bind]
  rw [ht]
  simp

theorem parseValue_recordLine (id doc text : List Char) (emb : List DecNum) (sim : DecNum)
    (fuel : Nat) (hf : emb.length + 7 ≤ fuel) :
    parseValue fuel (recordLine id ⟨doc, text, emb, sim⟩) =
      some (recordJson id ⟨doc, text, emb, sim⟩, []) := by
  obtain ⟨k, rfl⟩ := Nat.exists_eq_add_of_le hf
  have h5close : parseObjTail (emb.length + 2 + k) (['}'] : List Char) = some ([], []) := by
    rw [show emb.length + 2 + k = (emb.length + 1 + k) + 1 from by omega]
    exact parseObjTail_close _ []
  have h5val : parseValue (emb.length + 2 + k) (stringifyNum sim ++ (['}'] : List Char)) =
      some (Json.num sim, (['}'] : List Char)) := by
    rw [show emb.length + 2 + k = (emb.length + 1 + k) + 1 from by omega]
    exact parseValue_num _ sim (['}'] : List Char) ⟨by decide, by decide, by decide, by decide, by decide⟩
  have h4tail : parseObjTail (emb.length + 3 + k)
      (',' :: (stringifyStr "similarity".data ++ ':' :: (stringifyNum sim ++ (['}'] : List Char)))) = some ([("similarity".data, Json.num sim)], []) := by
    rw [show emb.length + 3 + k = (emb.length + 2 + k) + 1 from by omega]
    exact parseObjTail_member _ _ _ _ _ _ _ h5val h5close
  have h4val : parseValue (emb.length + 3 + k)
      (stringifyArrNums emb ++ (',' :: (stringifyStr "similarity".data ++ ':' :: (stringifyNum sim ++ (['}'] : List Char))))) =
      some (Json.arr (emb.map Json.num), ',' :: (stringifyStr "similarity".data ++ ':' :: (stringifyNum sim ++ (['}'] : List Char)))) := by
    rw [show emb.length + 3 + k = (emb.length + 2 + k) + 1 from by omega]
    exact parseValue_arrNums emb _ (by omega) _
  have h3tail : parseObjTail (emb.length + 4 + k)
      (',' :: (stringifyStr "embedding".data ++ ':' :: (stringifyArrNums emb ++ (',' :: (stringifyStr "similarity".data ++ ':' :: (stringifyNum sim ++ (['}'] : List Char))))))) = some ([("embedding".data, Json.arr (emb.map Json.num)), ("similarity".data, Json.num sim)], []) := by
    rw [show emb.length + 4 + k = (emb.length + 3 + k) + 1 from by omega]
    exact parseObjTail_member _ _ _ _ _ _ _ h4val h4tail
  have h3val : parseValue (emb.length + 4 + k)
      (stringifyStr text ++ (',' :: (stringifyStr "embedding".data ++ ':' :: (stringifyArrNums emb ++ (',' :: (stringifyStr "similarity".data ++ ':' :: (stringifyNum sim ++ (['}'] : List Char)))))))) =
      some (Json.str text, ',' :: (stringifyStr "embedding".data ++ ':' :: (stringifyArrNums emb ++ (',' :: (stringifyStr "similarity".data ++ ':' :: (stringifyNum sim ++ (['}'] : List Char))))))) := by
    rw [show emb.length + 4 + k = (emb.length + 3 + k) + 1 from by omega]
    exact parseValue_str _ text _
  have h2tail : parseObjTail (emb.length + 5 + k)
      (',' :: (stringifyStr "text".data ++ ':' :: (stringifyStr text ++ (',' :: (stringifyStr "embedding".data ++ ':' :: (stringifyArrNums emb ++ (',' :: (stringifyStr "similarity".data ++ ':' :: (stringifyNum sim ++ (['}'] : List Char)))))))))) = some ([("text".data, Json.str text), ("embedding".data, Json.arr (emb.map Json.num)), ("similarity".data, Json.num sim)], []) := by
    rw [show emb.length + 5 + k = (emb.length + 4 + k) + 1 from by omega]
    exact parseObjTail_member _ _ _ _ _ _ _ h3val h3tail
  have h2val : parseValue (emb.length + 5 + k)
      (stringifyStr doc ++ (',' :: (stringifyStr "text".data ++ ':' :: (stringifyStr text ++ (',' :: (stringifyStr "embedding".data ++ ':' :: (stringifyArrNums emb ++ (',' :: (stringifyStr "similarity".data ++ ':' :: (stringifyNum sim ++ (['}'] : List Char))))))))))) =
      some (Json.str doc, ',' :: (stringifyStr "text".data ++ ':' :: (stringifyStr text ++ (',' :: (stringifyStr "embedding".data ++ ':' :: (stringifyArrNums emb ++ (',' :: (stringifyStr "similarity".data ++ ':' :: (stringifyNum sim ++ (['}'] : List Char)))))))))) := by
    rw [show emb.length + 5 + k = (emb.length + 4 + k) + 1 from by omega]
    exact parseValue_str _ doc _
  have h1tail : parseObjTail (emb.length + 6 + k)
      (',' :: (stringifyStr "doc".data ++ ':' :: (stringifyStr doc ++ (',' :: (stringifyStr "text".data ++ ':' :: (stringifyStr text ++ (',' :: (stringifyStr "embedding".data ++ ':' :: (stringifyArrNums emb ++ (',' :: (stringifyStr "similarity".data ++ ':' :: (stringifyNum sim ++ (['}'] : List Char))))))))))))) = some ([("doc".data, Json.str doc), ("text".data, Json.str text), ("embedding".data, Json.arr (emb.map Json.num)), ("similarity".data, Json.num sim)], []) := by
    rw [show emb.length + 6 + k = (emb.length + 5 + k) + 1 from by omega]
    exact parseObjTail_member _ _ _ _ _ _ _ h2val h2tail
  have h1val : parseValue (emb.length + 6 + k)
      (stringifyStr id ++ (',' :: (stringifyStr "doc".data ++ ':' :: (stringifyStr doc ++ (',' :: (stringifyStr "text".data ++ ':' :: (stringifyStr text ++ (',' :: (stringifyStr "embedding".data ++ ':' :: (stringifyArrNums emb ++ (',' :: (stringifyStr "similarity".data ++ ':' :: (stringifyNum sim ++ (['}'] : List Char)))))))))))))) =
      some (Json.str id, ',' :: (stringifyStr "doc".data ++ ':' :: (stringifyStr doc ++ (',' :: (stringifyStr "text".data ++ ':' :: (stringifyStr text ++ (',' :: (stringifyStr "embedding".data ++ ':' :: (stringifyArrNums emb ++ (',' :: (stringifyStr "similarity".data ++ ':' :: (stringifyNum sim ++ (['}'] : List Char))))))))))))) := by
    rw [show emb.length + 6 + k = (emb.length + 5 + k) + 1 from by omega]
    exact parseValue_str _ id _
  have hshape : recordLine id ⟨doc, text, emb, sim⟩ =
      '{' :: (stringifyStr "id".data ++ ':' :: (stringifyStr id ++ (',' :: (stringifyStr "doc".data ++ ':' :: (stringifyStr doc ++ (',' :: (stringifyStr "text".data ++ ':' :: (stringifyStr text ++ (',' :: (stringifyStr "embedding".data ++ ':' :: (stringifyArrNums emb ++ (',' :: (stringifyStr "similarity".data ++ ':' :: (stringifyNum sim ++ (['}'] : List Char))))))))))))))) := by
    unfold recordLine
    simp [List.append_assoc]
  rw [hshape, show emb.length + 7 + k = (emb.length + 6 + k) + 1 from by omega]
  exact parseValue_object_first _ _ _ _ _ _ _ h1val h1tail

theorem numsSep_length (t : List DecNum) : t.length + 1 ≤ (numsSep t).length := by
  induction t with
  | nil => simp [numsSep]
  | cons n t ih =>
    have hn : 1 ≤ (stringifyNum n).length :=
      List.length_pos.mpr (stringifyNum_ne_nil n)
    simp only [numsSep, List.length_cons, List.length_append]
    omega

theorem stringifyArrNums_length (ns : List DecNum) :
    ns.length + 2 ≤ (stringifyArrNums ns).length := by
  cases ns with
  | nil => simp [stringifyArrNums]
  | cons n t =>
    have hn : 1 ≤ (stringifyNum n).length :=
      List.length_pos.mpr (stringifyNum_ne_nil n)
    have ht := numsSep_length t
    simp only [stringifyArrNums, List.length_cons, List.length_append]
    omega

theorem recordLine_length (id doc text : List Char) (emb : List DecNum) (sim : DecNum) :
    emb.length + 7 ≤ (recordLine id ⟨doc, text, emb, sim⟩).length + 1 := by
  have harr := stringifyArrNums_length emb
  unfold recordLine
  simp only [List.length_append, List.length_cons]
  omega

theorem jsonParse_recordLine (id doc text : List Char) (emb : List DecNum) (sim : DecNum) :
    jsonParse (recordLine id ⟨doc, text, emb, sim⟩) =
      some (recordJson id ⟨doc, text, emb, sim⟩) := by
  unfold jsonParse
  rw [parseValue_recordLine id doc text emb sim _ (recordLine_length id doc text emb sim)]
  rfl

theorem validateChunk_recordJson (id doc text : List Char) (emb : List DecNum) (sim : DecNum)
    (hid : id ≠ []) (hdoc : doc ≠ []) (htext : text ≠ []) :
    validateChunk (recordJson id ⟨doc, text, emb, sim⟩) = true := by
  unfold validateChunk recordJson getField
  simp [truthy, isArrField, hid, hdoc, htext]

theorem parseChunkLine_recordLine (id doc text : List Char) (emb : List DecNum) (sim : DecNum)
    (hid : id ≠ []) (hdoc : doc ≠ []) (htext : text ≠ []) :
    parseChunkLine (recordLine id ⟨doc, text, emb, sim⟩) =
      some (recordJson id ⟨doc, text, emb, sim⟩) := by
  unfold parseChunkLine
  rw [jsonParse_recordLine]
  simp only []
  rw [if_pos (validateChunk_recordJson id doc text emb sim hid hdoc htext)]

theorem loadLoop_eq (ls : List (List Char)) :
    loadLoop ls = (ls.filterMap parseChunkLine,
      (ls.filter (fun l => (parseChunkLine l).isNone)).length) := by
  induction ls with
  | nil => rfl
  | cons l ls ih =>
    unfold loadLoop
    rw [ih]
    cases h : parseChunkLine l with
    | none => simp [List.filterMap_cons, List.filter_cons, h]
    | some j => simp [List.filterMap_cons, List.filter_cons, h]

theorem splitOnNl_ne_nil (cs : List Char) : splitOnNl cs ≠ [] := by
  cases cs with
  | nil => simp [splitOnNl]
  | cons c t =>
    unfold splitOnNl
    by_cases h : c = '\n' <;> simp [h]

theorem splitOnNl_append (B R : List Char) :
    splitOnNl (B ++ '\n' :: R) = splitOnNl B ++ splitOnNl R := by
  induction B with
  | nil => simp [splitOnNl]
  | cons c B ih =>
    by_cases h : c = '\n'
    · subst h
      show splitOnNl ('\n' :: (B ++ '\n' :: R)) = splitOnNl ('\n' :: B) ++ splitOnNl R
      rw [splitOnNl.eq_def]
      simp only [ite_true, reduceIte]
      rw [ih]
      conv_rhs => rw [splitOnNl.eq_def]
      simp
    · show splitOnNl (c :: (B ++ '\n' :: R)) = splitOnNl (c :: B) ++ splitOnNl R
      rw [splitOnNl.eq_def]
      simp only [h, if_false, ite_false, ih]
      conv_rhs => rw [splitOnNl.eq_def]
      simp only [h, if_false, ite_false]
      obtain ⟨p, ps, hp⟩ := List.exists_cons_of_ne_nil (splitOnNl_ne_nil B)
      rw [hp]
      simp

theorem splitOnNl_no_newline (l : List Char) (h : '\n' ∉ l) : splitOnNl l = [l] := by
  induction l with
  | nil => rfl
  | cons c t ih =>
    unfold splitOnNl
    have hc : c ≠ '\n' := fun he => h (he ▸ List.mem_cons_self c t)
    have ht := ih (fun hm => h (List.mem_cons_of_mem c hm))
    simp [hc, ht]

theorem jsTrim_eq_self (l : List Char) (hh : jsWs (l.headD 'x') = false)
    (hl : jsWs (l.getLast?.getD 'x') = false) : jsTrim l = l := by
  cases l with
  | nil => rfl
  | cons c t =>
    simp only [List.headD_cons] at hh
    unfold jsTrim
    rw [List.dropWhile_cons_of_neg (by simp [hh])]
    rcases List.eq_nil_or_concat (c :: t) with hnil | ⟨L, b, heq⟩
    · exact absurd hnil (List.cons_ne_nil c t)
    · have hb : jsWs b = false := by
        rw [heq] at hl
        simpa using hl
      rw [heq, List.concat_eq_append, List.reverse_append, List.reverse_singleton,
        List.singleton_append, List.dropWhile_cons_of_neg (by simp [hb])]
      simp

theorem dropWhile_append_of_head (st X : List Char) (p : Char → Bool)
    (hX : X.dropWhile p = X) :
    (st ++ X).dropWhile p = st.dropWhile p ++ X := by
  rw [List.dropWhile_append]
  split
  · next h =>
    rw [List.isEmpty_iff] at h
    rw [h, List.nil_append, hX]
  · rfl

theorem getLast?_dropWhile (st : List Char) (p : Char → Bool)
    (hne : st.dropWhile p ≠ []) : (st.dropWhile p).getLast? = st.getLast? := by
  obtain ⟨pre, hpre⟩ := List.dropWhile_suffix (l := st) p
  conv_rhs => rw [← hpre]
  rw [List.getLast?_append]
  obtain ⟨L, b, hLb⟩ : ∃ L : List Char, ∃ b : Char, st.dropWhile p = L ++ [b] := by
    rcases List.eq_nil_or_concat (st.dropWhile p) with h | ⟨L, b, h⟩
    · exact absurd h hne
    · exact ⟨L, b, by rw [h, List.concat_eq_append]⟩
  rw [hLb, List.getLast?_concat]
  rfl

theorem jsTrim_append_line (st l0 : List Char) (c0 lc : Char)
    (hc0 : jsWs c0 = false) (hlc : jsWs lc = false) :
    jsTrim (st ++ (c0 :: (l0 ++ [lc])) ++ ['\n']) =
      st.dropWhile jsWs ++ (c0 :: (l0 ++ [lc])) := by
  unfold jsTrim
  have h1 : (st ++ (c0 :: (l0 ++ [lc])) ++ ['\n']).dropWhile jsWs =
      st.dropWhile jsWs ++ ((c0 :: (l0 ++ [lc])) ++ ['\n']) := by
    rw [List.append_assoc]
    exact dropWhile_append_of_head st _ jsWs
      (by simp only [List.cons_append]
          rw [List.dropWhile_cons_of_neg (by simp [hc0])])
  rw [h1]
  have h2 : (st.dropWhile jsWs ++ ((c0 :: (l0 ++ [lc])) ++ ['\n'])).reverse =
      '\n' :: (lc :: ((c0 :: l0).reverse ++ (st.dropWhile jsWs).reverse)) := by
    simp [List.reverse_append]
  rw [h2, List.dropWhile_cons_of_pos (by decide),
    List.dropWhile_cons_of_neg (by simp [hlc])]
  simp [List.reverse_append]

theorem mem_processedLines_append (st l0 : List Char) (c0 lc : Char)
    (hc0 : jsWs c0 = false) (hlc : jsWs lc = false)
    (hnl : '\n' ∉ (c0 :: (l0 ++ [lc])))
    (hst : st = [] ∨ st.getLast? = some '\n') :
    (c0 :: (l0 ++ [lc])) ∈ processedLines (st ++ (c0 :: (l0 ++ [lc])) ++ ['\n']) := by
  unfold processedLines
  rw [jsTrim_append_line st l0 c0 lc hc0 hlc]
  have hPline : jsTrim (c0 :: (l0 ++ [lc])) ≠ [] := by
    rw [jsTrim_eq_self _ (by simpa using hc0) (by
      rw [show (c0 :: (l0 ++ [lc])) = (c0 :: l0) ++ [lc] from by simp,
        List.getLast?_concat]
      simpa using hlc)]
    simp
  have hsplit_line : splitOnNl (c0 :: (l0 ++ [lc])) = [c0 :: (l0 ++ [lc])] :=
    splitOnNl_no_newline _ hnl
  by_cases htl : st.dropWhile jsWs = []
  · rw [htl, List.nil_append, hsplit_line]
    simp [hPline]
  · have hlast : (st.dropWhile jsWs).getLast? = some '\n' := by
      rcases hst with h | h
      · subst h; simp at htl
      · rw [getLast?_dropWhile st jsWs htl, h]
    obtain ⟨B, b, hBb⟩ : ∃ B : List Char, ∃ b : Char, st.dropWhile jsWs = B ++ [b] := by
      rcases List.eq_nil_or_concat (st.dropWhile jsWs) with h | ⟨B, b, h⟩
      · exact absurd h htl
      · exact ⟨B, b, by rw [h, List.concat_eq_append]⟩
    have hbnl : b = '\n' := by
      rw [hBb, List.getLast?_concat] at hlast
      exact Option.some_inj.mp hlast
    subst hbnl
    rw [hBb, List.append_assoc, List.singleton_append,
      splitOnNl_append, hsplit_line, List.filter_append]
    refine List.mem_append.mpr (Or.inr ?_)
    simp [hPline]

theorem newline_not_mem_escapeChar (c : Char) : '\n' ∉ escapeChar c := by
  unfold escapeChar
  by_cases h1 : c = '"'
  · simp [h1]
  · by_cases h2 : c = '\\'
    · simp [h1, h2]
    · by_cases h3 : c = '\x08'
      · simp [h1, h2, h3]
      · by_cases h4 : c = '\t'
        · simp [h1, h2, h3, h4]
        · by_cases h5 : c = '\n'
          · simp [h1, h2, h3, h4, h5]
          · by_cases h6 : c = '\x0c'
            · simp [h1, h2, h3, h4, h5, h6]
            · by_cases h7 : c = '\r'
              · simp [h1, h2, h3, h4, h5, h6, h7]
              · by_cases h8 : c.toNat < 32
                · simp only [h1, h2, h3, h4, h5, h6, h7, h8, if_false, if_true,
                    ite_false, ite_true]
                  intro hm
                  have ha : c.toNat / 16 < 16 := by omega
                  have hb : c.toNat % 16 < 16 := by omega
                  simp only [List.mem_cons, List.mem_singleton, List.not_mem_nil,
                    or_false] at hm
                  rcases hm with hm | hm | hm | hm | hm | hm
                  · exact absurd hm (by decide)
                  · exact absurd hm (by decide)
                  · exact absurd hm (by decide)
                  · exact absurd hm (by decide)
                  · revert hm
                    set a := c.toNat / 16 with hadef
                    clear_value a
                    interval_cases a <;> decide
                  · revert hm
                    set b := c.toNat % 16 with hbdef
                    clear_value b
                    interval_cases b <;> decide
                · simp only [h1, h2, h3, h4, h5, h6, h7, h8, if_false, ite_false]
                  intro hm
                  rw [List.mem_singleton.mp hm] at h5
                  exact h5 rfl

theorem newline_not_mem_escapeString (s : List Char) : '\n' ∉ escapeString s := by
  induction s with
  | nil => simp [escapeString]
  | cons c s ih =>
    unfold escapeString
    intro hm
    rcases List.mem_append.mp hm with h | h
    · exact newline_not_mem_escapeChar c h
    · exact ih h

theorem newline_not_mem_stringifyStr (s : List Char) : '\n' ∉ stringifyStr s := by
  unfold stringifyStr
  intro hm
  rcases List.mem_cons.mp hm with h | h
  · exact absurd h (by decide)
  · rcases List.mem_append.mp h with h | h
    · exact newline_not_mem_escapeString s h
    · exact absurd (List.mem_singleton.mp h) (by decide)

theorem newline_not_mem_stringifyNum (d : DecNum) : '\n' ∉ stringifyNum d := by
  obtain ⟨m, e⟩ := d
  have hdig : ∀ x ∈ List.replicate (e + 1 - (charDigits m.natAbs).length) '0' ++
      charDigits m.natAbs, Char.isDigit x = true := by
    intro x hx
    rcases List.mem_append.mp hx with h | h
    · rw [List.eq_of_mem_replicate h]; decide
    · exact charDigits_all_digit _ x h
  unfold stringifyNum
  intro hm
  by_cases he : e = 0
  · subst he
    rw [if_pos rfl] at hm
    rcases List.mem_append.mp hm with h | h
    · by_cases hs : m < 0
      · rw [if_pos hs] at h
        exact absurd (List.mem_singleton.mp h) (by decide)
      · rw [if_neg hs] at h
        simp at h
    · exact absurd (hdig '\n' h) (by decide)
  · rw [if_neg he] at hm
    rcases List.mem_append.mp hm with h | h
    · rcases List.mem_append.mp h with h | h
      · by_cases hs : m < 0
        · rw [if_pos hs] at h
          exact absurd (List.mem_singleton.mp h) (by decide)
        · rw [if_neg hs] at h
          simp at h
      · exact absurd (hdig '\n' (List.mem_of_mem_take h)) (by decide)
    · rcases List.mem_cons.mp h with h | h
      · exact absurd h (by decide)
      · exact absurd (hdig '\n' (List.mem_of_mem_drop h)) (by decide)

theorem newline_not_mem_numsSep (t : List DecNum) : '\n' ∉ numsSep t := by
  induction t with
  | nil => simp [numsSep]
  | cons n t ih =>
    unfold numsSep
    intro hm
    rcases List.mem_cons.mp hm with h | h
    · exact absurd h (by decide)
    · rcases List.mem_append.mp h with h | h
      · exact newline_not_mem_stringifyNum n h
      · exact ih h

theorem newline_not_mem_stringifyArrNums (ns : List DecNum) :
    '\n' ∉ stringifyArrNums ns := by
  cases ns with
  | nil => simp [stringifyArrNums]
  | cons n t =>
    unfold stringifyArrNums
    intro hm
    rcases List.mem_cons.mp hm with h | h
    · exact absurd h (by decide)
    · rcases List.mem_append.mp h with h | h
      · exact newline_not_mem_stringifyNum n h
      · exact newline_not_mem_numsSep t h

theorem recordLine_shape (id : List Char) (c : StoredChunk) :
    recordLine id c = '{' :: ((stringifyStr "id".data ++ ':' :: stringifyStr id
      ++ ',' :: stringifyStr "doc".data ++ ':' :: stringifyStr c.doc
      ++ ',' :: stringifyStr "text".data ++ ':' :: stringifyStr c.text
      ++ ',' :: stringifyStr "embedding".data ++ ':' :: stringifyArrNums c.embedding
      ++ ',' :: stringifyStr "similarity".data ++ ':' :: stringifyNum c.similarity)
      ++ ['}']) := by
  unfold recordLine
  simp [List.append_assoc]

theorem newline_not_mem_recordLine (id : List Char) (c : StoredChunk) :
    '\n' ∉ recordLine id c := by
  have hA : ∀ (x y : List Char), '\n' ∉ x → '\n' ∉ y → '\n' ∉ x ++ y :=
    fun x y hx hy hm => (List.mem_append.mp hm).elim hx hy
  have hC : ∀ (ch : Char) (y : List Char), ch ≠ '\n' → '\n' ∉ y → '\n' ∉ ch :: y :=
    fun ch y hch hy hm => (List.mem_cons.mp hm).elim (fun h => hch h.symm) hy
  unfold recordLine
  refine hA _ _ ?_ (by decide)
  refine hA _ _ ?_ (hC ':' _ (by decide) (newline_not_mem_stringifyNum _))
  refine hA _ _ ?_ (hC ',' _ (by decide) (newline_not_mem_stringifyStr _))
  refine hA _ _ ?_ (hC ':' _ (by decide) (newline_not_mem_stringifyArrNums _))
  refine hA _ _ ?_ (hC ',' _ (by decide) (newline_not_mem_stringifyStr _))
  refine hA _ _ ?_ (hC ':' _ (by decide) (newline_not_mem_stringifyStr _))
  refine hA _ _ ?_ (hC ',' _ (by decide) (newline_not_mem_stringifyStr _))
  refine hA _ _ ?_ (hC ':' _ (by decide) (newline_not_mem_stringifyStr _))
  refine hA _ _ ?_ (hC ',' _ (by decide) (newline_not_mem_stringifyStr _))
  refine hA _ _ ?_ (hC ':' _ (by decide) (newline_not_mem_stringifyStr _))
  exact hC '{' _ (by decide) (newline_not_mem_stringifyStr _)

theorem c6_try (embed : List Char → Option (List DecNum)) (ids : Nat → List Char)
    (doc : List Char) (chunks : List (List Char)) :
    ∀ (i : Nat) (st : Option (List Char)),
      (ingestFrom embed ids doc i st chunks).created +
        (ingestFrom embed ids doc i st chunks).failed.length = chunks.length ∧
      (ingestFrom embed ids doc i st chunks).failed =
        (chunks.enumFrom i).filterMap
          (fun p => if (embed p.2).isNone then some p.1 else none) ∧
      fileData (ingestFrom embed ids doc i st chunks).state =
        fileData st ++ ((chunks.enumFrom i).filterMap
          (fun p => (embed p.2).map
            (fun emb => recordLine (ids p.1) ⟨doc, p.2, emb, ((0 : Int), 0)⟩ ++ ['\n']))).flatten := by
  induction chunks with
  | nil => intro i st; simp [ingestFrom]
  | cons ch rest ih =>
    intro i st
    unfold ingestFrom
    cases hemb : embed ch with
    | none =>
      dsimp only
      obtain ⟨ih1, ih2, ih3⟩ := ih (i + 1) st
      refine ⟨?_, ?_, ?_⟩
      · simp only [List.length_cons, List.length_cons]
        omega
      · rw [List.enumFrom_cons, List.filterMap_cons]
        simp only [hemb, Option.isNone_none, ite_true, if_true]
        rw [ih2]
      · rw [List.enumFrom_cons, List.filterMap_cons]
        simp only [hemb, Option.map_none']
        rw [ih3]
    | some emb =>
      dsimp only
      obtain ⟨ih1, ih2, ih3⟩ :=
        ih (i + 1) (appendChunkState st (ids i) ⟨doc, ch, emb, ((0 : Int), 0)⟩)
      refine ⟨?_, ?_, ?_⟩
      · simp only [List.length_cons]
        omega
      · rw [List.enumFrom_cons, List.filterMap_cons]
        simp only [hemb, Option.isNone_some, ite_false, if_false]
        rw [ih2]
        simp
      · rw [List.enumFrom_cons, List.filterMap_cons]
        simp only [hemb, Option.map_some']
        rw [ih3]
        simp only [List.flatten_cons]
        unfold appendChunkState fileData
        simp [List.append_assoc]

def c3GoodChunk : StoredChunk :=
  ⟨"doc.txt".data, "hello world".data, [((1 : Int), 0)], ((0 : Int), 0)⟩

def c3Data : List Char :=
  recordLine "i1".data c3GoodChunk ++ '\n' :: "not json at all".data

/-- Claim C3: `loadAllChunks` parses each line-delimited record independently
and returns exactly the records that pass structural validation, counting
each skipped line; on a file with one well-formed record followed by one
line of garbage text it returns exactly that record with one skipped
line. -/
theorem c3_corruption_tolerant_load :
    (∀ data : List Char,
      loadFile (some data) =
        ((processedLines data).filterMap parseChunkLine,
         ((processedLines data).filter
           (fun l => (parseChunkLine l).isNone)).length)) ∧
    loadFile (some c3Data) = ([recordJson "i1".data c3GoodChunk], 1) := by
  constructor
  · intro data
    unfold loadFile
    exact loadLoop_eq _
  · rfl

/-- Claim C4: appending a valid chunk (non-empty doc, text and id) and then
loading the store yields a list containing the record with exactly the
appended fields plus the fresh id, provided the prior file contents are
empty or newline-terminated, as every reachable store state is. -/
theorem c4_append_load_round_trip (st : Option (List Char)) (id doc text : List Char)
    (emb : List DecNum) (sim : DecNum)
    (hid : id ≠ []) (hdoc : doc ≠ []) (htext : text ≠ [])
    (hst : fileData st = [] ∨ (fileData st).getLast? = some '\n') :
    recordJson id ⟨doc, text, emb, sim⟩ ∈
      (loadFile (appendChunkState st id ⟨doc, text, emb, sim⟩)).1 ∧
    getField (recordJson id ⟨doc, text, emb, sim⟩) "doc".data = some (Json.str doc) ∧
    getField (recordJson id ⟨doc, text, emb, sim⟩) "text".data = some (Json.str text) ∧
    getField (recordJson id ⟨doc, text, emb, sim⟩) "embedding".data =
      some (Json.arr (emb.map Json.num)) ∧
    getField (recordJson id ⟨doc, text, emb, sim⟩) "id".data = some (Json.str id) := by
  refine ⟨?_, rfl, rfl, rfl, rfl⟩
  unfold appendChunkState loadFile
  simp only []
  rw [loadLoop_eq]
  refine List.mem_filterMap.mpr ⟨recordLine id ⟨doc, text, emb, sim⟩, ?_,
    parseChunkLine_recordLine id doc text emb sim hid hdoc htext⟩
  have hshape := recordLine_shape id ⟨doc, text, emb, sim⟩
  have hnl := newline_not_mem_recordLine id ⟨doc, text, emb, sim⟩
  rw [hshape] at hnl ⊢
  exact mem_processedLines_append (fileData st) _ '{' '}' (by decide) (by decide) hnl hst

theorem c4_append_load_round_trip_witness :
    recordJson "i".data ⟨"d".data, "t".data, [((1 : Int), 0)], ((0 : Int), 0)⟩ ∈
      (loadFile (appendChunkState none "i".data
        ⟨"d".data, "t".data, [((1 : Int), 0)], ((0 : Int), 0)⟩)).1 ∧
    getField (recordJson "i".data ⟨"d".data, "t".data, [((1 : Int), 0)], ((0 : Int), 0)⟩)
      "doc".data = some (Json.str "d".data) :=
  ⟨(c4_append_load_round_trip none "i".data "d".data "t".data [((1 : Int), 0)]
      ((0 : Int), 0) (by decide) (by decide) (by decide) (Or.inl rfl)).1,
   (c4_append_load_round_trip none "i".data "d".data "t".data [((1 : Int), 0)]
      ((0 : Int), 0) (by decide) (by decide) (by decide) (Or.inl rfl)).2.1⟩

/-- Claim C6: over the whole ingest loop, created plus failed counts equal
the chunk total, the failed list is exactly the indices of the chunks whose
embedding failed, and the final file contents extend the prior contents with
one appended record per successfully embedded chunk — so one chunk failing
never aborts the rest. -/
theorem c6_partial_success_ingest (embed : List Char → Option (List DecNum))
    (ids : Nat → List Char) (doc rawText : List Char) (st : Option (List Char)) :
    ((ingestDocument embed ids doc rawText st).1.created +
      (ingestDocument embed ids doc rawText st).1.failed.length =
        (ingestDocument embed ids doc rawText st).2) ∧
    ((ingestDocument embed ids doc rawText st).2 = (chunkText rawText 1500 30).length) ∧
    ((ingestDocument embed ids doc rawText st).1.failed =
      ((chunkText rawText 1500 30).enumFrom 0).filterMap
        (fun p => if (embed p.2).isNone then some p.1 else none)) ∧
    (fileData (ingestDocument embed ids doc rawText st).1.state =
      fileData st ++ (((chunkText rawText 1500 30).enumFrom 0).filterMap
        (fun p => (embed p.2).map
          (fun emb => recordLine (ids p.1) ⟨doc, p.2, emb, ((0 : Int), 0)⟩ ++ ['\n']))).flatten) := by
  obtain ⟨h1, h2, h3⟩ := c6_try embed ids doc (chunkText rawText 1500 30) 0 st
  unfold ingestDocument
  exact ⟨h1, rfl, h2, h3⟩

/-- Claim C7: `clearChunks` never errors and always leaves the store absent
(so `loadAllChunks` returns the empty list with zero skips), hence clearing
twice gives the same empty state as clearing once and clearing an
already-empty store succeeds. -/
theorem c7_clear_idempotent :
    (∀ st : Option (List Char), clearFile st = Except.ok none) ∧
    clearFile none = Except.ok none ∧ loadFile none = ([], 0) := by
  refine ⟨?_, rfl, rfl⟩
  intro st
  cases st <;> rfl

/-- Claim C10: every persisted record carries a `similarity` member holding
the appended chunk's similarity value, the ingest loop appends each
successfully embedded chunk with similarity 0, and after an append the
loaded store contains a record whose `similarity` member is the appended
value. -/
theorem c10_similarity_persisted (st : Option (List Char)) (id doc text : List Char)
    (emb : List DecNum) (sim : DecNum)
    (hid : id ≠ []) (hdoc : doc ≠ []) (htext : text ≠ [])
    (hst : fileData st = [] ∨ (fileData st).getLast? = some '\n') :
    (∀ (id2 : List Char) (c : StoredChunk),
      getField (recordJson id2 c) "similarity".data = some (Json.num c.similarity)) ∧
    (∀ (embed : List Char → Option (List DecNum)) (ids : Nat → List Char)
      (d : List Char) (i : Nat) (s : Option (List Char)) (ch : List Char)
      (rest : List (List Char)) (e : List DecNum), embed ch = some e →
        (ingestFrom embed ids d i s (ch :: rest)).state =
          (ingestFrom embed ids d (i + 1)
            (appendChunkState s (ids i) ⟨d, ch, e, ((0 : Int), 0)⟩) rest).state) ∧
    ∃ j ∈ (loadFile (appendChunkState st id ⟨doc, text, emb, sim⟩)).1,
      getField j "similarity".data = some (Json.num sim) := by
  refine ⟨fun id2 c => rfl, ?_, ?_⟩
  · intro embed ids d i s ch rest e he
    simp only [ingestFrom, he]
  · refine ⟨recordJson id ⟨doc, text, emb, sim⟩, ?_, rfl⟩
    unfold appendChunkState loadFile
    simp only []
    rw [loadLoop_eq]
    refine List.mem_filterMap.mpr ⟨recordLine id ⟨doc, text, emb, sim⟩, ?_,
      parseChunkLine_recordLine id doc text emb sim hid hdoc htext⟩
    have hshape := recordLine_shape id ⟨doc, text, emb, sim⟩
    have hnl := newline_not_mem_recordLine id ⟨doc, text, emb, sim⟩
    rw [hshape] at hnl ⊢
    exact mem_processedLines_append (fileData st) _ '{' '}' (by decide) (by decide) hnl hst

theorem c10_similarity_persisted_witness :
    ∃ j ∈ (loadFile (appendChunkState none "i".data
        ⟨"d".data, "t".data, [((1 : Int), 0)], ((5 : Int), 1)⟩)).1,
      getField j "similarity".data = some (Json.num ((5 : Int), 1)) :=
  (c10_similarity_persisted none "i".data "d".data "t".data [((1 : Int), 0)]
    ((5 : Int), 1) (by decide) (by decide) (by decide) (Or.inl rfl)).2.2

end RAGChat
